import Mathlib

/-! The markdownlint rules of `lib/rules.js`: a shallow embedding and its properties.

JavaScript strings are modelled as lists of Unicode characters (`Str`); `units` gives the
UTF-16 code units of a string, which is what an expression without the `u` flag counts
(only `MD013` counts symbols; the other expressions and the uses of `length` give the same
result on characters and on code units, a character outside the Basic Multilingual Plane
being two code units that are neither white space nor one of the literal characters).
Arrays are lists, numbers natural numbers, `null`/`undefined` is `none`.  Every rule function `MDxxx(params, errors)` pushes line numbers on `errors`;
here a rule returns the final content of `errors` for an initially empty array.  The
regular expressions of the source are written in a small regular expression language
(`Re`) whose matcher enumerates the possible remainders of the input.
-/

namespace Markdownlint

/-- A JavaScript string, as the list of its characters. -/
abbrev Str := List Char

/-! ## Character classes of the regular expressions -/

/-- The class `\s` of a JavaScript regular expression (white space and line terminators);
`trim` and `trimLeft` strip exactly these characters. -/
def isSpace (c : Char) : Bool :=
  let n := c.toNat
  n == 9 || n == 10 || n == 11 || n == 12 || n == 13 || n == 32 || n == 160 ||
  n == 5760 || (8192 ≤ n && n ≤ 8202) || n == 8232 || n == 8233 || n == 8239 ||
  n == 8287 || n == 12288 || n == 65279

/-- Line terminators: the characters that `.` does not match. -/
def isLineTerminator (c : Char) : Bool :=
  let n := c.toNat
  n == 10 || n == 13 || n == 8232 || n == 8233

/-- The class `.` of a regular expression. -/
def isDot (c : Char) : Bool := !isLineTerminator c

/-- The class `\d`. -/
def isDigit (c : Char) : Bool := 48 ≤ c.toNat && c.toNat ≤ 57

/-- The class of one literal character. -/
def isChar (a : Char) (c : Char) : Bool := c == a

/-- The class `\s` on UTF-16 code units. -/
def isSpaceUnit (n : Nat) : Bool :=
  n == 9 || n == 10 || n == 11 || n == 12 || n == 13 || n == 32 || n == 160 ||
  n == 5760 || (8192 ≤ n && n ≤ 8202) || n == 8232 || n == 8233 || n == 8239 ||
  n == 8287 || n == 12288 || n == 65279

/-- The class `.` on UTF-16 code units: every code unit but the line terminators. -/
def isDotUnit (n : Nat) : Bool :=
  !(n == 10 || n == 13 || n == 8232 || n == 8233)

/-- The UTF-16 code units of a character: its code below 65536, and the high and the low
surrogate otherwise. -/
def utf16 (c : Char) : List Nat :=
  if c.toNat < 65536 then [c.toNat]
  else [55296 + (c.toNat - 65536) / 1024, 56320 + (c.toNat - 65536) % 1024]

/-- The UTF-16 code units of a string: the elements that `length` and an expression without
the `u` flag count. -/
def units (s : List Char) : List Nat := s.flatMap utf16

/-- The backtick character (code 96). -/
def backtick : Char := Char.ofNat 96

/-! ## Regular expressions -/

/-- The fragment of regular expressions used by the rules, over the symbols `α` of the
input (characters, or UTF-16 code units where the expression counts them): one symbol of a
class, `p*`, `p+`, `p{n}` for a class `p`, the end-of-input assertion `$`, the empty
expression, concatenation and alternation. -/
inductive Re (α : Type) where
  | cls (p : α → Bool)
  | star (p : α → Bool)
  | plus (p : α → Bool)
  | rep (n : Nat) (p : α → Bool)
  | eol
  | eps
  | seq (a b : Re α)
  | alt (a b : Re α)

/-- Remainders of `s` after `p*`: `s` itself and every remainder reached by consuming
leading characters of class `p`. -/
def starEnds {α : Type} (p : α → Bool) : List α → List (List α)
  | [] => [[]]
  | c :: s => (c :: s) :: (if p c then starEnds p s else [])

/-- Remainders of `s` after `p{n}`. -/
def repEnds {α : Type} (p : α → Bool) : Nat → List α → List (List α)
  | 0, s => [s]
  | _ + 1, [] => []
  | n + 1, c :: s => if p c then repEnds p n s else []

/-- Remainders of `s` after one character of class `p`. -/
def clsEnds {α : Type} (p : α → Bool) : List α → List (List α)
  | [] => []
  | c :: s => if p c then [s] else []

/-- All remainders of the input after a match of the expression at its start. -/
def Re.ends {α : Type} [DecidableEq α] : Re α → List α → List (List α)
  | .cls p, s => clsEnds p s
  | .star p, s => starEnds p s
  | .plus p, s => (clsEnds p s).flatMap (starEnds p)
  | .rep n p, s => repEnds p n s
  | .eol, s => if s = [] then [s] else []
  | .eps, s => [s]
  | .seq a b, s => (Re.ends a s).flatMap (Re.ends b)
  | .alt a b, s => Re.ends a s ++ Re.ends b s

/-- The expression matches at the start of the input (a regular expression `/^r/`). -/
def Re.matchStart {α : Type} [DecidableEq α] (r : Re α) (s : List α) : Bool :=
  !(r.ends s).isEmpty

/-- The expression matches somewhere in the input (a regular expression `/r/`). -/
def Re.search {α : Type} [DecidableEq α] (r : Re α) (s : List α) : Bool :=
  s.tails.any (fun t => r.matchStart t)

/-- The literal string `w` as an expression. -/
def Re.lit : Str → Re Char
  | [] => .eps
  | c :: w => .seq (.cls (isChar c)) (Re.lit w)

/-! ## String helpers -/

/-- `String.prototype.trimLeft`. -/
def trimLeft (s : Str) : Str := s.dropWhile isSpace

/-- `String.prototype.trim`. -/
def trim (s : Str) : Str := ((s.dropWhile isSpace).reverse.dropWhile isSpace).reverse

/-! ## Document model -/

/-- A child of an inline token. -/
structure Child where
  type : String
  content : Str
  deriving DecidableEq, Repr

/-- A parser token, with the fields the rules read. -/
structure Token where
  type : String
  lineNumber : Nat
  line : Str
  lines : Nat × Nat
  level : Nat
  hLevel : Nat
  children : List Child
  deriving DecidableEq, Repr

/-- The options of a rule (`params.options`); `none` is an absent option. -/
structure Options where
  style : Option String
  indent : Option Nat
  line_length : Option Nat
  deriving DecidableEq, Repr

/-- The argument `params` of a rule. -/
structure Params where
  tokens : List Token
  lines : List Str
  options : Options

/-! ## Helper functions of `rules.js` -/

/-- `indentFor(token)`: the number of leading white-space characters of the token's line. -/
def indentFor (token : Token) : Nat :=
  token.line.length - (trimLeft token.line).length

/-- The test `token.line.match(/#\s*$/)`. -/
def reClosedAtx : Re Char := .seq (.cls (isChar '#')) (.seq (.star isSpace) .eol)

/-- `headingStyleFor(token)`. -/
def headingStyleFor (token : Token) : String :=
  if (token.lines.2 : Int) - (token.lines.1 : Int) = 1 then
    if reClosedAtx.search token.line then "atx_closed" else "atx"
  else "setext"

/-- `unorderedListStyleFor(token)`; `none` is the result `null`. -/
def unorderedListStyleFor (token : Token) : Option String :=
  match (trimLeft token.line).take 1 with
  | ['*'] => some "asterisk"
  | ['-'] => some "dash"
  | ['+'] => some "plus"
  | _ => none

/-- `filterTokens(tokens, tokenA, tokenB)`; `tokenB` is `none` when the call omits it. -/
def filterTokens (tokens : List Token) (tokenA : String) (tokenB : Option String) :
    List Token :=
  tokens.filter (fun token => token.type == tokenA || some token.type == tokenB)

/-- `padAndTrim(lines)`. -/
def padAndTrim (lines : List Str) : List Str :=
  [[]] ++ lines.map trim ++ [[]]

/-- `Array.prototype.forEach` with a callback that reads the element and its index and
updates the captured variables `σ`. -/
def forEachIdx {α σ : Type} (f : σ → α → Nat → σ) : Nat → List α → σ → σ
  | _, [], s => s
  | i, a :: as, s => forEachIdx f (i + 1) as (f s a i)

/-- The value of `x || d` for an optional string option: an absent or empty string is
falsy. -/
def strOr (x : Option String) (d : String) : String :=
  match x with
  | none => d
  | some s => if s = "" then d else s

/-- The value of `x || d` for an optional numeric option: an absent number or `0` is
falsy. -/
def natOr (x : Option Nat) (d : Nat) : Nat :=
  match x with
  | none => d
  | some 0 => d
  | some n => n

/-! ## The rules -/

/-- The variables captured by the callback of `MD001`. -/
structure MD001.State where
  prevLevel : Nat
  errors : List Nat

/-- The callback `forToken` of `MD001`; `prevLevel && ...` is falsy when `prevLevel` is 0. -/
def MD001.forToken (s : MD001.State) (token : Token) : MD001.State :=
  { prevLevel := token.hLevel,
    errors := if s.prevLevel ≠ 0 ∧ token.hLevel > s.prevLevel + 1
      then s.errors ++ [token.lineNumber] else s.errors }

/-- Rule `MD001`: header levels should only increment by one level at a time. -/
def MD001 (params : Params) : List Nat :=
  ((filterTokens params.tokens "heading_open" none).foldl MD001.forToken
    { prevLevel := 0, errors := [] }).errors

/-- The loop `params.tokens.every(forToken)` of `MD002`: it stops at the first token for
which the callback returns `false`. -/
def MD002.every : List Token → List Nat → List Nat
  | [], errors => errors
  | token :: rest, errors =>
    if token.type = "heading_open" then
      (if token.hLevel ≠ 1 then errors ++ [token.lineNumber] else errors)
    else MD002.every rest errors

/-- Rule `MD002`: first header should be a h1 header. -/
def MD002 (params : Params) : List Nat := MD002.every params.tokens []

/-- The style `MD003` compares with: `params.options.style || "consistent"`, replaced by
the style of the first heading when it is `"consistent"` and there is a heading. -/
def MD003.style (params : Params) : String :=
  let style := strOr params.options.style "consistent"
  match filterTokens params.tokens "heading_open" none with
  | [] => style
  | first :: _ => if style = "consistent" then headingStyleFor first else style

/-- The callback `forToken` of `MD003`. -/
def MD003.forToken (style : String) (errors : List Nat) (token : Token) : List Nat :=
  if headingStyleFor token ≠ style then errors ++ [token.lineNumber] else errors

/-- Rule `MD003`: header style. -/
def MD003 (params : Params) : List Nat :=
  (filterTokens params.tokens "heading_open" none).foldl
    (MD003.forToken (MD003.style params)) []

/-- The style `MD004` compares with: `params.options.style || "consistent"`, replaced by
the style of the first list item (possibly `null`) when it is `"consistent"` and there is
a list item. -/
def MD004.style (params : Params) : Option String :=
  let style := strOr params.options.style "consistent"
  match filterTokens params.tokens "list_item_open" none with
  | [] => some style
  | first :: _ => if style = "consistent" then unorderedListStyleFor first else some style

/-- The callback `forToken` of `MD004`. -/
def MD004.forToken (style : Option String) (errors : List Nat) (token : Token) :
    List Nat :=
  if unorderedListStyleFor token ≠ style then errors ++ [token.lineNumber] else errors

/-- Rule `MD004`: unordered list style. -/
def MD004 (params : Params) : List Nat :=
  (filterTokens params.tokens "list_item_open" none).foldl
    (MD004.forToken (MD004.style params)) []

/-- The variables captured by the callback of `MD005`; `indentLevels` is a sparse array,
`none` at the indices never assigned. -/
structure MD005.State where
  indentLevels : Nat → Option Nat
  errors : List Nat

/-- The test `!indentLevels[token.level]`: true for `undefined` and for `0`. -/
def MD005.unset (v : Option Nat) : Bool :=
  match v with
  | none => true
  | some 0 => true
  | some _ => false

/-- The callback `forToken` of `MD005`. -/
def MD005.forToken (s : MD005.State) (token : Token) : MD005.State :=
  let indentLevel := indentFor token
  if MD005.unset (s.indentLevels token.level) then
    { s with indentLevels := Function.update s.indentLevels token.level (some indentLevel) }
  else if some indentLevel ≠ s.indentLevels token.level then
    { s with errors := s.errors ++ [token.lineNumber] }
  else s

/-- Rule `MD005`: inconsistent indentation for list items at the same level. -/
def MD005 (params : Params) : List Nat :=
  ((filterTokens params.tokens "list_item_open" none).foldl MD005.forToken
    { indentLevels := fun _ => none, errors := [] }).errors

/-- The array `exclusions` of `MD012`: for every `code_block` or `fence` token, in order,
the indices `token.lines[0], ..., token.lines[1] - 1`. -/
def MD012.exclusions (params : Params) : List Nat :=
  (filterTokens params.tokens "code_block" (some "fence")).flatMap
    (fun token => List.range' token.lines.1 (token.lines.2 - token.lines.1))

/-- The variables captured by the line callback of `MD012`. -/
structure MD012.State where
  prevLine : Str
  errors : List Nat

/-- The callback `forLine` of `MD012`. -/
def MD012.forLine (exclusions : List Nat) (s : MD012.State) (line : Str)
    (lineIndex : Nat) : MD012.State :=
  let line := trim line
  { prevLine := line,
    errors := if line.length = 0 ∧ s.prevLine.length = 0 ∧ lineIndex ∉ exclusions
      then s.errors ++ [lineIndex + 1] else s.errors }

/-- Rule `MD012`: multiple consecutive blank lines. -/
def MD012 (params : Params) : List Nat :=
  (forEachIdx (MD012.forLine (MD012.exclusions params)) 0 params.lines
    { prevLine := ['-'], errors := [] }).errors

/-- The expression `new RegExp("^.{" + lineLength + "}.*\\s")` of `MD013`, without its
anchor, over UTF-16 code units (the expression has no `u` flag).  For a limit below 10^21
the text `String(lineLength)` is the decimal digits of the limit and the braces are a
repetition count.  For a limit of 10^21 or more that text is in exponent notation
(`1e+21` for 10^21), the braces are no repetition count, and the expression the engine
builds from the text is the parameter `exponentForm`. -/
def MD013.regex (exponentForm : Nat → Re Nat) (lineLength : Nat) : Re Nat :=
  if lineLength < 10 ^ 21 then
    .seq (.rep lineLength isDotUnit) (.seq (.star isDotUnit) (.cls isSpaceUnit))
  else exponentForm lineLength

/-- The expression `/^.{1e+21}.*\s/`, without its anchor, which
`new RegExp("^.{" + lineLength + "}.*\\s")` is for the limit 10^21: a code unit of class
`.`, the literal text `{1`, one or more `e`, the literal text `21}`, then `.*` and `\s`
(code units 123, 49, 101, 50, 49, 125). -/
def reLimit1e21 : Re Nat :=
  .seq (.cls isDotUnit)
    (.seq (.cls (fun u => u == 123))
      (.seq (.cls (fun u => u == 49))
        (.seq (.plus (fun u => u == 101))
          (.seq (.cls (fun u => u == 50))
            (.seq (.cls (fun u => u == 49))
              (.seq (.cls (fun u => u == 125))
                (.seq (.star isDotUnit) (.cls isSpaceUnit))))))))

/-- The callback `forLine` of `MD013`; the expression is tested on the code units of the
line. -/
def MD013.forLine (exponentForm : Nat → Re Nat) (lineLength : Nat) (errors : List Nat)
    (line : Str) (lineIndex : Nat) : List Nat :=
  if (MD013.regex exponentForm lineLength).matchStart (units line)
  then errors ++ [lineIndex + 1] else errors

/-- Rule `MD013`: line length. -/
def MD013 (exponentForm : Nat → Re Nat) (params : Params) : List Nat :=
  forEachIdx (MD013.forLine exponentForm (natOr params.options.line_length 80)) 0
    params.lines []

/-- The expression `/^([\*\+\-]|(\d+\.))\s/` of `MD032`, without its anchor. -/
def reListMarker : Re Char :=
  .seq (.alt (.cls (fun c => c == '*' || c == '+' || c == '-'))
             (.seq (.plus isDigit) (.cls (isChar '.'))))
       (.cls isSpace)

/-- The expression `/^($|\s)/` of `MD032`, without its anchor. -/
def reBlankStart : Re Char := .alt .eol (.cls isSpace)

/-- The expression `/^(` three backticks `|~~~)/` of `MD031` and `MD032`, without its
anchor. -/
def reFence : Re Char :=
  .alt (Re.lit [backtick, backtick, backtick]) (Re.lit ['~', '~', '~'])

/-- The variables captured by the line callback of `MD032`; `inList` holds the truth value
of the last `listMarker` (a match result or `null`) or `false`. -/
structure MD032.State where
  inList : Bool
  inCode : Bool
  prevLine : Str
  errors : List Nat

/-- The first statement of the callback of `MD032`: the checks made outside code. -/
def MD032.checkLine (s : MD032.State) (line : Str) (lineIndex : Nat) : MD032.State :=
  if !s.inCode then
    let listMarker := reListMarker.matchStart (trim line)
    let errors :=
      if listMarker && !s.inList && !reBlankStart.matchStart s.prevLine then
        s.errors ++ [lineIndex + 1]
      else if !listMarker && s.inList && !reBlankStart.matchStart line then
        s.errors ++ [lineIndex]
      else s.errors
    { s with errors := errors, inList := listMarker }
  else s

/-- The callback `forLine` of `MD032`. -/
def MD032.forLine (s : MD032.State) (line : Str) (lineIndex : Nat) : MD032.State :=
  let s := MD032.checkLine s line lineIndex
  let s :=
    if reFence.matchStart (trim line) then { s with inCode := !s.inCode, inList := false }
    else s
  { s with prevLine := line }

/-- The initial values of the variables of `MD032`. -/
def MD032.init : MD032.State :=
  { inList := false, inCode := false, prevLine := [], errors := [] }

/-- Rule `MD032`: lists should be surrounded by blank lines. -/
def MD032 (params : Params) : List Nat :=
  (forEachIdx MD032.forLine 0 params.lines MD032.init).errors

/-- The callback `filterToken` of `MD006`: from the counter `inList` before the token to
the counter after it and the value returned to `filter`. -/
def MD006.filterToken (inList : Int) (token : Token) : Int × Bool :=
  if token.type = "bullet_list_open" then (inList + 1, decide (inList + 1 = 1))
  else if token.type = "bullet_list_close" then (inList - 1, false)
  else (inList, false)

/-- The call `params.tokens.filter(filterToken)` of `MD006`, the callback updating the
captured counter `inList` from token to token. -/
def MD006.filter : Int → List Token → List Token
  | _, [] => []
  | inList, token :: rest =>
    if (MD006.filterToken inList token).2 then
      token :: MD006.filter (MD006.filterToken inList token).1 rest
    else MD006.filter (MD006.filterToken inList token).1 rest

/-- The callback `forToken` of `MD006`. -/
def MD006.forToken (errors : List Nat) (token : Token) : List Nat :=
  if indentFor token ≠ 0 then errors ++ [token.lineNumber] else errors

/-- Rule `MD006`: consider starting bulleted lists at the beginning of the line. -/
def MD006 (params : Params) : List Nat :=
  (MD006.filter 0 params.tokens).foldl MD006.forToken []

/-- The variables captured by the callback of `MD007`. -/
structure MD007.State where
  prevIndent : Nat
  errors : List Nat

/-- The callback `forToken` of `MD007`. -/
def MD007.forToken (optionsIndent : Nat) (s : MD007.State) (token : Token) : MD007.State :=
  let indent := indentFor token
  { prevIndent := indent,
    errors := if indent > s.prevIndent ∧ indent - s.prevIndent ≠ optionsIndent
      then s.errors ++ [token.lineNumber] else s.errors }

/-- Rule `MD007`: unordered list indentation. -/
def MD007 (params : Params) : List Nat :=
  ((filterTokens params.tokens "bullet_list_open" none).foldl
    (MD007.forToken (natOr params.options.indent 2))
    { prevIndent := 0, errors := [] }).errors

/-- The expression `/\s$/` of `MD009`. -/
def reTrailingSpace : Re Char := .seq (.cls isSpace) .eol

/-- The callback `forLine` of `MD009`. -/
def MD009.forLine (errors : List Nat) (line : Str) (lineIndex : Nat) : List Nat :=
  if reTrailingSpace.search line then errors ++ [lineIndex + 1] else errors

/-- Rule `MD009`: trailing spaces. -/
def MD009 (params : Params) : List Nat :=
  forEachIdx MD009.forLine 0 params.lines []

/-- The tab character (code 9). -/
def tab : Char := Char.ofNat 9

/-- The expression `/\t/` of `MD010`. -/
def reTab : Re Char := .cls (isChar tab)

/-- The callback `forLine` of `MD010`. -/
def MD010.forLine (errors : List Nat) (line : Str) (lineIndex : Nat) : List Nat :=
  if reTab.search line then errors ++ [lineIndex + 1] else errors

/-- Rule `MD010`: hard tabs. -/
def MD010 (params : Params) : List Nat :=
  forEachIdx MD010.forLine 0 params.lines []

/-- The call `filterTokens(token.children, tokenA, tokenB)` on the children of a token. -/
def filterChildren (children : List Child) (tokenA : String) (tokenB : Option String) :
    List Child :=
  children.filter (fun child => child.type == tokenA || some child.type == tokenB)

/-- The expression `/\([^)]+\)\[[^\]]+\]/` of `MD011`. -/
def reReversedLink : Re Char :=
  .seq (.cls (isChar '('))
    (.seq (.plus (fun c => c != ')'))
      (.seq (.cls (isChar ')'))
        (.seq (.cls (isChar '['))
          (.seq (.plus (fun c => c != ']')) (.cls (isChar ']'))))))

/-- The callback `forChild` of `MD011`, for the children of `token`. -/
def MD011.forChild (token : Token) (errors : List Nat) (child : Child) : List Nat :=
  if reReversedLink.search child.content then errors ++ [token.lineNumber] else errors

/-- The callback `forToken` of `MD011`. -/
def MD011.forToken (errors : List Nat) (token : Token) : List Nat :=
  (filterChildren token.children "text" none).foldl (MD011.forChild token) errors

/-- Rule `MD011`: reversed link syntax. -/
def MD011 (params : Params) : List Nat :=
  (filterTokens params.tokens "inline" none).foldl MD011.forToken []

/-- The variables captured by the callback of `MD028`; `prevToken` is `none` for the
initial object without a type.  The rule pushes `token.lineNumber - 1`, an integer. -/
structure MD028.State where
  prevToken : Option Token
  errors : List Int

/-- The callback `forToken` of `MD028`. -/
def MD028.forToken (s : MD028.State) (token : Token) : MD028.State :=
  { prevToken := some token,
    errors := if token.type = "blockquote_open" ∧
        s.prevToken.map Token.type = some "blockquote_close"
      then s.errors ++ [(token.lineNumber : Int) - 1] else s.errors }

/-- Rule `MD028`: blank line inside blockquote. -/
def MD028 (params : Params) : List Int :=
  (params.tokens.foldl MD028.forToken { prevToken := none, errors := [] }).errors

/-- The value of `lines[i].length`: `none` when `lines[i]` is `undefined` (the index is
negative or not below the length), where reading `length` throws. -/
def MD031.lengthAt (lines : List Str) (i : Int) : Option Nat :=
  if i < 0 then none else (lines[i.toNat]?).map List.length

/-- The condition `(inCode && lines[lineNumber - 1].length) ||
(!inCode && lines[lineNumber + 1].length)` of `MD031`, evaluated left to right with
short-circuit; `none` when an evaluated access throws. -/
def MD031.condition (lines : List Str) (inCode : Bool) (lineNumber : Nat) : Option Bool :=
  (if inCode then (MD031.lengthAt lines ((lineNumber : Int) - 1)).map (fun n => n != 0)
    else some false).bind
  (fun left =>
    if left then some true
    else if !inCode then
      (MD031.lengthAt lines ((lineNumber : Int) + 1)).map (fun n => n != 0)
    else some false)

/-- The variables captured by the line callback of `MD031`. -/
structure MD031.State where
  inCode : Bool
  errors : List Nat

/-- The callback `forLine` of `MD031` over the padded list `lines`; `none` is the state
after an exception, which ends the loop. -/
def MD031.forLine (lines : List Str) (s : Option MD031.State) (line : Str)
    (lineNumber : Nat) : Option MD031.State :=
  s.bind (fun s =>
    if reFence.matchStart line then
      (MD031.condition lines (!s.inCode) lineNumber).map (fun flag =>
        { inCode := !s.inCode,
          errors := if flag then s.errors ++ [lineNumber] else s.errors })
    else some s)

/-- Rule `MD031`: fenced code blocks should be surrounded by blank lines; `none` when the
rule throws. -/
def MD031 (params : Params) : Option (List Nat) :=
  (forEachIdx (MD031.forLine (padAndTrim params.lines)) 0 (padAndTrim params.lines)
    (some { inCode := false, errors := [] })).map MD031.State.errors

/-! ## Builders for concrete documents -/

/-- A token of the given type, line number, source line, line span, level and heading
level, without children. -/
def mkToken (type : String) (lineNumber : Nat) (line : String) (lines : Nat × Nat)
    (level hLevel : Nat) : Token :=
  { type := type, lineNumber := lineNumber, line := line.toList, lines := lines,
    level := level, hLevel := hLevel, children := [] }

/-- No option given. -/
def noOptions : Options := { style := none, indent := none, line_length := none }

/-- Parameters holding only tokens, with no option given. -/
def ofTokens (tokens : List Token) : Params :=
  { tokens := tokens, lines := [], options := noOptions }

/-- Parameters holding only lines, with no option given. -/
def ofLines (lines : List String) : Params :=
  { tokens := [], lines := lines.map String.toList, options := noOptions }

/-! ## Specification-side definitions -/

/-- The heading tokens of a token sequence, in order. -/
def headingsOf (tokens : List Token) : List Token :=
  tokens.filter (fun t => decide (t.type = "heading_open"))

/-- The list item tokens of a token sequence, in order. -/
def listItemsOf (tokens : List Token) : List Token :=
  tokens.filter (fun t => decide (t.type = "list_item_open"))

/-- Line numbers of the headings, other than the first, whose level exceeds the level of
the heading just before by more than one. -/
def incrementFlags : List Token → List Nat
  | [] => []
  | [_] => []
  | a :: b :: rest =>
    (if a.hLevel + 1 < b.hLevel then [b.lineNumber] else []) ++ incrementFlags (b :: rest)

/-- The variables of `MD032` after the lines `pre` have been processed. -/
def MD032.stateAfter (pre : List Str) : MD032.State :=
  forEachIdx MD032.forLine 0 pre MD032.init

/-- What the list-start check of `MD032` pushes for the line of number `n` whose preceding
line is `prev`: nothing when `prev` is empty or begins with a white-space character, and
`n` otherwise. -/
def MD032.startReport (prev : Str) (n : Nat) : List Nat :=
  match prev with
  | [] => []
  | c :: _ => if isSpace c then [] else [n]

/-- The list-item marker pattern: a bullet `*`, `+` or `-`, or one or more digits and a
dot, followed by a white-space character. -/
def isListMarker (s : Str) : Prop :=
  (∃ c w rest, s = c :: w :: rest ∧ (c = '*' ∨ c = '+' ∨ c = '-') ∧ isSpace w = true) ∨
  (∃ ds w rest, s = ds ++ '.' :: w :: rest ∧ ds ≠ [] ∧ (∀ d ∈ ds, isDigit d = true) ∧
    isSpace w = true)

/-- The invariant of the loop of `MD032` before the line of index `i`: the reported numbers
are in non-decreasing order, none exceeds `i`, `i` occurs at most once and every number at
most twice. -/
def MD032.Inv (i : Nat) (errs : List Nat) : Prop :=
  errs.Sorted (fun a b => a ≤ b) ∧ (∀ m ∈ errs, m ≤ i) ∧ errs.count i ≤ 1 ∧
    ∀ m, errs.count m ≤ 2

/-- The bullet list opening tokens of a token sequence, in order. -/
def bulletListsOf (tokens : List Token) : List Token :=
  tokens.filter (fun t => decide (t.type = "bullet_list_open"))

/-- Line numbers of the tokens whose indentation exceeds the indentation `prev` of the token
just before (0 before the first) by an amount other than `step`. -/
def stepFlags (step : Nat) : Nat → List Token → List Nat
  | _, [] => []
  | prev, t :: rest =>
    (if prev < indentFor t ∧ indentFor t - prev ≠ step then [t.lineNumber] else [])
      ++ stepFlags step (indentFor t) rest

/-- The numbers `lineNumber - 1` of the `blockquote_open` tokens that come immediately
after a `blockquote_close` token. -/
def reopenFlags : List Token → List Int
  | [] => []
  | [_] => []
  | a :: b :: rest =>
    (if a.type = "blockquote_close" ∧ b.type = "blockquote_open"
      then [(b.lineNumber : Int) - 1] else []) ++ reopenFlags (b :: rest)

/-- The number of `bullet_list_open` tokens in a token sequence. -/
def opensIn (seen : List Token) : Nat :=
  seen.countP (fun t => decide (t.type = "bullet_list_open"))

/-- The number of `bullet_list_close` tokens in a token sequence. -/
def closesIn (seen : List Token) : Nat :=
  seen.countP (fun t => decide (t.type = "bullet_list_close"))

/-- Line numbers of the `bullet_list_open` tokens that have as many `bullet_list_open` as
`bullet_list_close` tokens before them (`seen` holds the tokens before the list) and whose
line has a nonzero indentation. -/
def topLevelFlags (seen : List Token) : List Token → List Nat
  | [] => []
  | t :: rest =>
    (if t.type = "bullet_list_open" ∧ opensIn seen = closesIn seen ∧ indentFor t ≠ 0
      then [t.lineNumber] else []) ++ topLevelFlags (seen ++ [t]) rest

/-- The earliest token of `seen` at the given level whose line has a nonzero
indentation. -/
def baselineOf (seen : List Token) (level : Nat) : Option Token :=
  seen.find? (fun u => decide (u.level = level ∧ indentFor u ≠ 0))

/-- Line numbers of the list items whose indentation differs from the indentation of the
earliest strictly earlier item of their level with a nonzero indentation, when there is
one (`seen` holds the items before the list). -/
def baselineFlags (seen : List Token) : List Token → List Nat
  | [] => []
  | t :: rest =>
    (match baselineOf seen t.level with
      | some u => if indentFor t ≠ indentFor u then [t.lineNumber] else []
      | none => []) ++ baselineFlags (seen ++ [t]) rest

/-- The earliest token of `seen` at the given level. -/
def firstOf (seen : List Token) (level : Nat) : Option Token :=
  seen.find? (fun u => decide (u.level = level))

/-- Line numbers of the list items whose indentation differs from the indentation of the
first item of their level, when they are not that first item. -/
def firstItemFlags (seen : List Token) : List Token → List Nat
  | [] => []
  | t :: rest =>
    (match firstOf seen t.level with
      | some u => if indentFor t ≠ indentFor u then [t.lineNumber] else []
      | none => []) ++ firstItemFlags (seen ++ [t]) rest

/-- The array `indentLevels` of `MD005` agrees with the items seen so far: at a level with
an earlier item of nonzero indentation it holds the indentation of the earliest one, at
another level its entry is unset or 0. -/
def MD005.Agrees (seen : List Token) (s : MD005.State) : Prop :=
  ∀ level, match baselineOf seen level with
    | some u => s.indentLevels level = some (indentFor u)
    | none => MD005.unset (s.indentLevels level) = true

/-- The content holds a reversed link: `(`, one or more characters other than `)`, `)[`,
one or more characters other than `]`, and `]`. -/
def hasReversedLink (s : Str) : Prop :=
  ∃ pre a b post, s = pre ++ '(' :: (a ++ ')' :: '[' :: (b ++ ']' :: post)) ∧
    a ≠ [] ∧ (∀ c ∈ a, c ≠ ')') ∧ b ≠ [] ∧ (∀ c ∈ b, c ≠ ']')

/-- What an inline token contributes to the result of `MD011`: its line number, once for
each child of type `text` whose content matches. -/
def reversedLinkFlags (t : Token) : List Nat :=
  ((t.children.filter (fun child => decide (child.type = "text"))).filter
    (fun child => reReversedLink.search child.content)).map (fun _ => t.lineNumber)

/-- The line starts with three backticks or with three tildes. -/
def startsWithFence (s : Str) : Prop :=
  ∃ rest, s = backtick :: backtick :: backtick :: rest ∨ s = '~' :: '~' :: '~' :: rest

/-- The number of fence lines among the first `n` lines of a document. -/
def fenceCount (lines : List Str) (n : Nat) : Nat :=
  ((lines.take n).map trim).countP (fun l => reFence.matchStart l)

/-- The value of `inCode` after the lines `ls` for the value `b` before them. -/
def codeAfter : Bool → List Str → Bool
  | b, [] => b
  | b, l :: ls => codeAfter (if reFence.matchStart l then !b else b) ls

/-- The list `P` has a non-empty string at index `j`. -/
def nonEmptyAt (P : List Str) (j : Nat) : Bool :=
  match P[j]? with
  | some x => x.length != 0
  | none => false

/-- The neighbour test of `MD031` at the fence line of index `m` of the padded list `P`:
the line before when the fence enters code, the line after when it leaves code. -/
def MD031.flagAt (P : List Str) (inCode : Bool) (m : Nat) : Bool :=
  if inCode then nonEmptyAt P (m - 1) else nonEmptyAt P (m + 1)

/-! ## Lemmas on the helper functions -/

theorem mem_clsEnds {α : Type} (p : α → Bool) (s t : List α) :
    t ∈ clsEnds p s ↔ ∃ c, s = c :: t ∧ p c = true := by
  cases s with
  | nil => simp [clsEnds]
  | cons c s =>
    by_cases h : p c = true
    · simp only [clsEnds, if_pos h, List.mem_singleton, List.cons.injEq]
      constructor
      · rintro rfl; exact ⟨c, ⟨rfl, rfl⟩, h⟩
      · rintro ⟨d, ⟨_, h2⟩, _⟩; exact h2.symm
    · simp only [clsEnds, if_neg h, List.not_mem_nil, List.cons.injEq, false_iff]
      rintro ⟨d, ⟨rfl, _⟩, hd⟩; exact h hd

theorem mem_starEnds {α : Type} (p : α → Bool) (s t : List α) :
    t ∈ starEnds p s ↔ ∃ u, s = u ++ t ∧ ∀ c ∈ u, p c = true := by
  induction s with
  | nil =>
    simp only [starEnds, List.mem_singleton]
    constructor
    · rintro rfl; exact ⟨[], by simp⟩
    · rintro ⟨u, h, _⟩
      have := congrArg List.length h
      simp at this
      exact List.length_eq_zero.mp (by omega)
  | cons c s ih =>
    simp only [starEnds, List.mem_cons]
    constructor
    · rintro (rfl | h)
      · exact ⟨[], by simp⟩
      · by_cases hp : p c = true
        · rw [if_pos hp, ih] at h
          obtain ⟨u, rfl, hu⟩ := h
          exact ⟨c :: u, by simp, by
            intro d hd
            rcases List.mem_cons.mp hd with rfl | hd
            · exact hp
            · exact hu d hd⟩
        · rw [if_neg hp] at h; simp at h
    · rintro ⟨u, h, hu⟩
      cases u with
      | nil => left; simpa using h.symm
      | cons d u =>
        right
        simp only [List.cons_append, List.cons.injEq] at h
        obtain ⟨rfl, rfl⟩ := h
        have hp : p c = true := hu c (by simp)
        rw [if_pos hp, ih]
        exact ⟨u, rfl, fun e he => hu e (List.mem_cons_of_mem _ he)⟩

theorem mem_repEnds {α : Type} (p : α → Bool) (n : Nat) :
    ∀ (s t : List α), t ∈ repEnds p n s ↔ ∃ u, s = u ++ t ∧ u.length = n ∧ ∀ c ∈ u, p c = true := by
  induction n with
  | zero =>
    intro s t
    simp [repEnds]
    constructor
    · rintro rfl; exact ⟨[], by simp⟩
    · rintro ⟨u, h, hl, _⟩
      rw [hl] at h; simpa using h.symm
  | succ n ih =>
    intro s t
    cases s with
    | nil =>
      simp only [repEnds, List.not_mem_nil, false_iff]
      rintro ⟨u, h, hl, _⟩
      have := congrArg List.length h
      simp at this
      omega
    | cons c s =>
      simp only [repEnds]
      constructor
      · intro h
        by_cases hp : p c = true
        · rw [if_pos hp, ih] at h
          obtain ⟨u, rfl, hl, hu⟩ := h
          exact ⟨c :: u, by simp, by simp [hl], by
            intro d hd
            rcases List.mem_cons.mp hd with rfl | hd
            · exact hp
            · exact hu d hd⟩
        · rw [if_neg hp] at h; simp at h
      · rintro ⟨u, h, hl, hu⟩
        cases u with
        | nil => simp at hl
        | cons d u =>
          simp only [List.cons_append, List.cons.injEq] at h
          obtain ⟨rfl, rfl⟩ := h
          have hp : p c = true := hu c (by simp)
          rw [if_pos hp, ih]
          exact ⟨u, rfl, by simpa using hl, fun e he => hu e (List.mem_cons_of_mem _ he)⟩
theorem matchStart_iff {α : Type} [DecidableEq α] (r : Re α) (s : List α) :
    r.matchStart s = true ↔ ∃ t, t ∈ r.ends s := by
  unfold Re.matchStart
  cases h : r.ends s with
  | nil => simp
  | cons a l => simp

theorem search_iff {α : Type} [DecidableEq α] (r : Re α) (s : List α) :
    r.search s = true ↔ ∃ u t, s = u ++ t ∧ r.matchStart t = true := by
  unfold Re.search
  rw [List.any_eq_true]
  constructor
  · rintro ⟨t, ht, hm⟩
    rw [List.mem_tails] at ht
    obtain ⟨u, hu⟩ := ht
    exact ⟨u, t, hu.symm, hm⟩
  · rintro ⟨u, t, hs, hm⟩
    exact ⟨t, by rw [List.mem_tails]; exact ⟨u, hs.symm⟩, hm⟩

theorem mem_ends_seq {α : Type} [DecidableEq α] (a b : Re α) (s t : List α) :
    t ∈ (Re.seq a b).ends s ↔ ∃ m, m ∈ a.ends s ∧ t ∈ b.ends m := by
  simp [Re.ends, List.mem_flatMap]

theorem mem_ends_alt {α : Type} [DecidableEq α] (a b : Re α) (s t : List α) :
    t ∈ (Re.alt a b).ends s ↔ t ∈ a.ends s ∨ t ∈ b.ends s := by
  simp [Re.ends]

theorem mem_ends_eol {α : Type} [DecidableEq α] (s t : List α) :
    t ∈ (Re.eol : Re α).ends s ↔ s = [] ∧ t = [] := by
  by_cases h : s = []
  · subst h; simp [Re.ends]
  · simp [Re.ends, h]

theorem reClosedAtx_search_iff (s : Str) :
    reClosedAtx.search s = true ↔
      ∃ pre ws, s = pre ++ '#' :: ws ∧ ∀ c ∈ ws, isSpace c = true := by
  rw [search_iff]
  constructor
  · rintro ⟨u, t, hs, hm⟩
    rw [matchStart_iff] at hm
    obtain ⟨e, he⟩ := hm
    rw [reClosedAtx, mem_ends_seq] at he
    obtain ⟨m, hm1, hm2⟩ := he
    rw [mem_ends_seq] at hm2
    obtain ⟨m2, hm3, hm4⟩ := hm2
    rw [mem_ends_eol] at hm4
    simp only [Re.ends] at hm1 hm3
    rw [mem_clsEnds] at hm1
    rw [mem_starEnds] at hm3
    obtain ⟨c, rfl, hc⟩ := hm1
    obtain ⟨w, rfl, hw⟩ := hm3
    obtain ⟨rfl, rfl⟩ := hm4
    have hc2 : c = '#' := by simpa [isChar] using hc
    subst hc2
    exact ⟨u, w, by simpa using hs, hw⟩
  · rintro ⟨pre, ws, rfl, hw⟩
    refine ⟨pre, '#' :: ws, rfl, ?_⟩
    rw [matchStart_iff]
    refine ⟨[], ?_⟩
    rw [reClosedAtx, mem_ends_seq]
    refine ⟨ws, ?_, ?_⟩
    · simp only [Re.ends]; rw [mem_clsEnds]; exact ⟨'#', rfl, by simp [isChar]⟩
    · rw [mem_ends_seq]
      refine ⟨[], ?_, ?_⟩
      · simp only [Re.ends]; rw [mem_starEnds]; exact ⟨ws, by simp, hw⟩
      · rw [mem_ends_eol]; exact ⟨rfl, rfl⟩

theorem reBlankStart_iff (s : Str) :
    reBlankStart.matchStart s = true ↔
      s = [] ∨ ∃ c rest, s = c :: rest ∧ isSpace c = true := by
  rw [matchStart_iff]
  constructor
  · rintro ⟨t, ht⟩
    rw [reBlankStart, mem_ends_alt] at ht
    rcases ht with h | h
    · rw [mem_ends_eol] at h; exact Or.inl h.1
    · simp only [Re.ends] at h
      rw [mem_clsEnds] at h
      obtain ⟨c, hs, hc⟩ := h
      exact Or.inr ⟨c, t, hs, hc⟩
  · rintro (rfl | ⟨c, rest, rfl, hc⟩)
    · exact ⟨[], by rw [reBlankStart, mem_ends_alt, mem_ends_eol]; exact Or.inl ⟨rfl, rfl⟩⟩
    · refine ⟨rest, ?_⟩
      rw [reBlankStart, mem_ends_alt]
      right
      simp only [Re.ends]
      rw [mem_clsEnds]
      exact ⟨c, rfl, hc⟩

theorem MD013_regex_iff (exponentForm : Nat → Re Nat) (n : Nat) (hn : n < 10 ^ 21)
    (s : List Nat) :
    (MD013.regex exponentForm n).matchStart s = true ↔
      ∃ u v c t, s = u ++ (v ++ c :: t) ∧ u.length = n ∧ (∀ d ∈ u, isDotUnit d = true) ∧
        (∀ d ∈ v, isDotUnit d = true) ∧ isSpaceUnit c = true := by
  rw [matchStart_iff]
  have hre : MD013.regex exponentForm n
      = .seq (.rep n isDotUnit) (.seq (.star isDotUnit) (.cls isSpaceUnit)) := by
    unfold MD013.regex
    rw [if_pos hn]
  rw [hre]
  constructor
  · rintro ⟨e, he⟩
    rw [mem_ends_seq] at he
    obtain ⟨m, hm1, hm2⟩ := he
    rw [mem_ends_seq] at hm2
    obtain ⟨m2, hm3, hm4⟩ := hm2
    simp only [Re.ends] at hm1 hm3 hm4
    rw [mem_repEnds] at hm1
    rw [mem_starEnds] at hm3
    rw [mem_clsEnds] at hm4
    obtain ⟨u, rfl, hl, hu⟩ := hm1
    obtain ⟨v, rfl, hv⟩ := hm3
    obtain ⟨c, rfl, hc⟩ := hm4
    exact ⟨u, v, c, e, rfl, hl, hu, hv, hc⟩
  · rintro ⟨u, v, c, t, rfl, hl, hu, hv, hc⟩
    refine ⟨t, ?_⟩
    rw [mem_ends_seq]
    refine ⟨v ++ c :: t, ?_, ?_⟩
    · simp only [Re.ends]; rw [mem_repEnds]; exact ⟨u, rfl, hl, hu⟩
    · rw [mem_ends_seq]
      refine ⟨c :: t, ?_, ?_⟩
      · simp only [Re.ends]; rw [mem_starEnds]; exact ⟨v, rfl, hv⟩
      · simp only [Re.ends]; rw [mem_clsEnds]; exact ⟨c, rfl, hc⟩

theorem filterTokens_single (tokens : List Token) (a : String) :
    filterTokens tokens a none = tokens.filter (fun t => decide (t.type = a)) := by
  unfold filterTokens
  congr 1
  funext t
  by_cases h : t.type = a <;> simp [h]

theorem MD001_foldl (rest : List Token) :
    ∀ (a : Token) (errs : List Nat), (∀ t ∈ a :: rest, 1 ≤ t.hLevel) →
      (rest.foldl MD001.forToken { prevLevel := a.hLevel, errors := errs }).errors
        = errs ++ incrementFlags (a :: rest) := by
  induction rest with
  | nil => intro a errs _; simp [incrementFlags]
  | cons b rest ih =>
    intro a errs h
    have ha : 1 ≤ a.hLevel := h a (by simp)
    have hb : ∀ t ∈ b :: rest, 1 ≤ t.hLevel := fun t ht => h t (List.mem_cons_of_mem _ ht)
    rw [List.foldl_cons]
    have hstep : MD001.forToken { prevLevel := a.hLevel, errors := errs } b
        = { prevLevel := b.hLevel,
            errors := errs ++ (if a.hLevel + 1 < b.hLevel then [b.lineNumber] else []) } := by
      unfold MD001.forToken
      by_cases hlt : a.hLevel + 1 < b.hLevel
      · have : a.hLevel ≠ 0 := by omega
        simp [hlt, this]
      · simp [hlt]
    rw [hstep, ih b _ hb]
    simp [incrementFlags, List.append_assoc]

theorem MD002_every_find (tokens : List Token) :
    ∀ errors : List Nat, MD002.every tokens errors
      = errors ++ (match tokens.find? (fun t => decide (t.type = "heading_open")) with
          | none => []
          | some t => if t.hLevel = 1 then [] else [t.lineNumber]) := by
  induction tokens with
  | nil => intro errors; simp [MD002.every]
  | cons t rest ih =>
    intro errors
    by_cases h : t.type = "heading_open"
    · by_cases h1 : t.hLevel = 1 <;> simp [MD002.every, h, h1, List.find?]
    · simp [MD002.every, h, List.find?, ih]

theorem find_heading_append (pre : List Token) (t : Token) (post : List Token)
    (hpre : ∀ u ∈ pre, u.type ≠ "heading_open") (ht : t.type = "heading_open") :
    (pre ++ t :: post).find? (fun t => decide (t.type = "heading_open")) = some t := by
  induction pre with
  | nil => simp [List.find?, ht]
  | cons u pre ih =>
    have hu : u.type ≠ "heading_open" := hpre u (by simp)
    have := ih (fun v hv => hpre v (List.mem_cons_of_mem _ hv))
    simp [List.find?, hu, this]

theorem foldl_flag {α : Type} (f : List Nat → α → List Nat) (p : α → Bool) (g : α → Nat)
    (hf : ∀ e a, f e a = if p a = true then e ++ [g a] else e) (l : List α) :
    ∀ errs, l.foldl f errs = errs ++ (l.filter p).map g := by
  induction l with
  | nil => intro errs; simp
  | cons a l ih =>
    intro errs
    rw [List.foldl_cons, ih, hf]
    by_cases h : p a = true
    · simp [h]
    · simp [h]

theorem MD003_foldl (style : String) (l : List Token) (errs : List Nat) :
    l.foldl (MD003.forToken style) errs
      = errs ++ (l.filter (fun t => decide (headingStyleFor t ≠ style))).map
          Token.lineNumber := by
  apply foldl_flag
  intro e a
  simp [MD003.forToken]

theorem MD004_foldl (style : Option String) (l : List Token) (errs : List Nat) :
    l.foldl (MD004.forToken style) errs
      = errs ++ (l.filter (fun t => decide (unorderedListStyleFor t ≠ style))).map
          Token.lineNumber := by
  apply foldl_flag
  intro e a
  simp [MD004.forToken]

theorem strOr_consistent (x : Option String) :
    strOr x "consistent" = "consistent" ↔ x = none ∨ x = some "" ∨ x = some "consistent" := by
  cases x with
  | none => simp [strOr]
  | some v =>
    by_cases h : v = ""
    · simp [strOr, h]
    · simp [strOr, h]

theorem forEachIdx_flag_mem {α : Type} (f : List Nat → α → Nat → List Nat) (p : α → Bool)
    (hf : ∀ e a i, f e a i = if p a = true then e ++ [i + 1] else e) (ls : List α) :
    ∀ (i : Nat) (errs : List Nat) (m : Nat),
      m ∈ forEachIdx f i ls errs ↔
        m ∈ errs ∨ ∃ k line, ls[k]? = some line ∧ m = i + k + 1 ∧ p line = true := by
  induction ls with
  | nil => intro i errs m; simp [forEachIdx]
  | cons a ls ih =>
    intro i errs m
    rw [forEachIdx, ih, hf]
    constructor
    · rintro (h | ⟨k, line, hk, hm, hp⟩)
      · by_cases hpa : p a = true
        · rw [if_pos hpa, List.mem_append, List.mem_singleton] at h
          rcases h with h | h
          · exact Or.inl h
          · exact Or.inr ⟨0, a, by simp, by omega, hpa⟩
        · rw [if_neg hpa] at h; exact Or.inl h
      · exact Or.inr ⟨k + 1, line, by simpa using hk, by omega, hp⟩
    · rintro (h | ⟨k, line, hk, hm, hp⟩)
      · left
        by_cases hpa : p a = true
        · rw [if_pos hpa]; exact List.mem_append_left _ h
        · rw [if_neg hpa]; exact h
      · cases k with
        | zero =>
          left
          simp only [List.getElem?_cons_zero, Option.some.injEq] at hk
          subst hk
          rw [if_pos hp, List.mem_append, List.mem_singleton]
          right; omega
        | succ k =>
          right
          exact ⟨k, line, by simpa using hk, by omega, hp⟩

theorem space_after_iff {α : Type} (dot space : α → Bool) (n : Nat) (ln : List α)
    (hdot : ∀ d ∈ ln, dot d = true) :
    (∃ u v c t, ln = u ++ (v ++ c :: t) ∧ u.length = n ∧ (∀ d ∈ u, dot d = true) ∧
        (∀ d ∈ v, dot d = true) ∧ space c = true) ↔
      ∃ j c, n ≤ j ∧ ln[j]? = some c ∧ space c = true := by
  constructor
  · rintro ⟨u, v, c, t, rfl, hl, _, _, hc⟩
    refine ⟨u.length + v.length, c, by omega, ?_, hc⟩
    rw [List.getElem?_append_right (by omega)]
    rw [List.getElem?_append_right (by omega)]
    simp
  · rintro ⟨j, c, hnj, hj, hc⟩
    have hjl : j < ln.length := by
      by_contra hge
      rw [List.getElem?_eq_none (by omega)] at hj
      simp at hj
    have hget : ln[j] = c := by
      rw [List.getElem?_eq_getElem hjl] at hj
      simpa using hj
    have hdrop : ln.drop j = c :: ln.drop (j + 1) := by
      rw [← hget]; exact List.drop_eq_getElem_cons hjl
    refine ⟨(ln.take j).take n, (ln.take j).drop n, c, ln.drop (j + 1), ?_, ?_, ?_, ?_, hc⟩
    · rw [← hdrop, ← List.append_assoc, List.take_append_drop, List.take_append_drop]
    · simp [List.length_take]; omega
    · intro d hd
      exact hdot d (List.mem_of_mem_take (List.mem_of_mem_take hd))
    · intro d hd
      exact hdot d (List.mem_of_mem_take (List.mem_of_mem_drop hd))

theorem utf16_dot (c : Char) (hc : isLineTerminator c = false) :
    ∀ u ∈ utf16 c, isDotUnit u = true := by
  intro u hu
  unfold utf16 at hu
  by_cases hb : c.toNat < 65536
  · rw [if_pos hb, List.mem_singleton] at hu
    rw [hu]
    simpa [isDotUnit, isLineTerminator] using hc
  · rw [if_neg hb] at hu
    have h1 : 55296 ≤ u := by
      rcases List.mem_cons.mp hu with h | h
      · omega
      · rw [List.mem_singleton] at h; omega
    have e1 : (u == 10) = false := by simp; omega
    have e2 : (u == 13) = false := by simp; omega
    have e3 : (u == 8232) = false := by simp; omega
    have e4 : (u == 8233) = false := by simp; omega
    simp [isDotUnit, e1, e2, e3, e4]

theorem units_dot (ln : Str) (hlt : ∀ c ∈ ln, isLineTerminator c = false) :
    ∀ u ∈ units ln, isDotUnit u = true := by
  intro u hu
  unfold units at hu
  rw [List.mem_flatMap] at hu
  obtain ⟨c, hc, huc⟩ := hu
  exact utf16_dot c (hlt c hc) u huc

theorem units_bmp (ln : Str) (h : ∀ c ∈ ln, c.toNat < 65536) :
    units ln = ln.map Char.toNat := by
  induction ln with
  | nil => rfl
  | cons c ln ih =>
    have hc : c.toNat < 65536 := h c (by simp)
    have := ih (fun d hd => h d (List.mem_cons_of_mem _ hd))
    unfold units at this ⊢
    simp [List.flatMap_cons, utf16, hc, this]

theorem trim_eq_nil_iff (s : Str) : trim s = [] ↔ ∀ c ∈ s, isSpace c = true := by
  unfold trim
  rw [List.reverse_eq_nil_iff, List.dropWhile_eq_nil_iff]
  constructor
  · intro h
    have hd : s.dropWhile isSpace = [] := by
      cases hc : s.dropWhile isSpace with
      | nil => rfl
      | cons c r =>
        exfalso
        have hne : s.dropWhile isSpace ≠ [] := by rw [hc]; simp
        have h1 := List.head_dropWhile_not isSpace s hne
        have h2 := h c (by rw [hc]; simp)
        simp only [hc, List.head_cons] at h1
        rw [h2] at h1
        exact absurd h1 (by decide)
    exact List.dropWhile_eq_nil_iff.mp hd
  · intro h c hc
    exact h c ((List.dropWhile_sublist isSpace).subset (List.mem_reverse.mp hc))

theorem mem_exclusions (params : Params) (i : Nat) :
    i ∈ MD012.exclusions params ↔
      ∃ t ∈ params.tokens, (t.type = "code_block" ∨ t.type = "fence") ∧
        t.lines.1 ≤ i ∧ i < t.lines.2 := by
  unfold MD012.exclusions filterTokens
  simp only [List.mem_flatMap, List.mem_filter, List.mem_range'_1]
  constructor
  · rintro ⟨t, ⟨ht, hty⟩, h1, h2⟩
    refine ⟨t, ht, ?_, h1, by omega⟩
    simpa using hty
  · rintro ⟨t, ht, hty, h1, h2⟩
    exact ⟨t, ⟨ht, by simpa using hty⟩, h1, by omega⟩

theorem MD012_loop (ex : List Nat) (ls : List Str) :
    ∀ (i : Nat) (s : MD012.State) (m : Nat),
      m ∈ (forEachIdx (MD012.forLine ex) i ls s).errors ↔
        m ∈ s.errors ∨ ∃ k ln, ls[k]? = some ln ∧ m = i + k + 1 ∧ trim ln = [] ∧
          (s.prevLine :: ls.map trim)[k]? = some [] ∧ i + k ∉ ex := by
  induction ls with
  | nil => intro i s m; simp [forEachIdx]
  | cons a ls ih =>
    intro i s m
    rw [forEachIdx, ih]
    have hprev : (MD012.forLine ex s a i).prevLine = trim a := rfl
    have herr : (MD012.forLine ex s a i).errors
        = if trim a = [] ∧ s.prevLine = [] ∧ i ∉ ex then s.errors ++ [i + 1]
          else s.errors := by
      simp [MD012.forLine, List.length_eq_zero]
    rw [hprev, herr]
    constructor
    · rintro (h | ⟨k, ln, hk, hm, ht, hp, hx⟩)
      · by_cases hc : trim a = [] ∧ s.prevLine = [] ∧ i ∉ ex
        · rw [if_pos hc, List.mem_append, List.mem_singleton] at h
          rcases h with h | h
          · exact Or.inl h
          · exact Or.inr ⟨0, a, by simp, by omega, hc.1, by simp [hc.2.1], by simpa using hc.2.2⟩
        · rw [if_neg hc] at h; exact Or.inl h
      · refine Or.inr ⟨k + 1, ln, by simpa using hk, by omega, ht, ?_, ?_⟩
        · simpa using hp
        · have : i + (k + 1) = i + 1 + k := by omega
          rw [this]; exact hx
    · rintro (h | ⟨k, ln, hk, hm, ht, hp, hx⟩)
      · left
        by_cases hc : trim a = [] ∧ s.prevLine = [] ∧ i ∉ ex
        · rw [if_pos hc]; exact List.mem_append_left _ h
        · rw [if_neg hc]; exact h
      · cases k with
        | zero =>
          left
          simp only [List.getElem?_cons_zero, Option.some.injEq] at hk hp
          subst hk
          have hc : trim a = [] ∧ s.prevLine = [] ∧ i ∉ ex := ⟨ht, hp, by simpa using hx⟩
          rw [if_pos hc, List.mem_append, List.mem_singleton]
          right; omega
        | succ k =>
          right
          refine ⟨k, ln, by simpa using hk, by omega, ht, ?_, ?_⟩
          · simpa using hp
          · have : i + 1 + k = i + (k + 1) := by omega
            rw [this]; exact hx

theorem forEachIdx_append {α σ : Type} (f : σ → α → Nat → σ) (a : List α) :
    ∀ (b : List α) (i : Nat) (s : σ),
      forEachIdx f i (a ++ b) s = forEachIdx f (i + a.length) b (forEachIdx f i a s) := by
  induction a with
  | nil => intro b i s; simp [forEachIdx]
  | cons x a ih =>
    intro b i s
    have he : i + (a.length + 1) = i + 1 + a.length := by omega
    rw [List.cons_append, forEachIdx, forEachIdx, List.length_cons, ih, he]

theorem MD032_forLine_prevLine (s : MD032.State) (ln : Str) (i : Nat) :
    (MD032.forLine s ln i).prevLine = ln := rfl

theorem MD032_forLine_errors (s : MD032.State) (ln : Str) (i : Nat) :
    (MD032.forLine s ln i).errors = (MD032.checkLine s ln i).errors := by
  unfold MD032.forLine
  by_cases h : reFence.matchStart (trim ln) = true
  · simp [h]
  · simp [h]

theorem MD032_checkLine_cases (s : MD032.State) (ln : Str) (i : Nat) :
    (MD032.checkLine s ln i).errors = s.errors ∨
    (MD032.checkLine s ln i).errors = s.errors ++ [i] ∨
    (MD032.checkLine s ln i).errors = s.errors ++ [i + 1] := by
  unfold MD032.checkLine
  by_cases hc : s.inCode = true
  · simp [hc]
  · simp only [hc, Bool.not_false, if_true, Bool.false_eq_true]
    split
    · right; right; rfl
    · split
      · right; left; rfl
      · left; rfl

theorem MD032_Inv_keep (i : Nat) (errs : List Nat) (h : MD032.Inv i errs) :
    MD032.Inv (i + 1) errs := by
  obtain ⟨h1, h2, _, h4⟩ := h
  refine ⟨h1, fun m hm => Nat.le_succ_of_le (h2 m hm), ?_, h4⟩
  have : i + 1 ∉ errs := fun hm => by have := h2 _ hm; omega
  rw [List.count_eq_zero_of_not_mem this]
  omega

theorem MD032_Inv_push (i x : Nat) (errs : List Nat) (hx : x = i ∨ x = i + 1)
    (h : MD032.Inv i errs) : MD032.Inv (i + 1) (errs ++ [x]) := by
  obtain ⟨h1, h2, h3, h4⟩ := h
  have hnot : i + 1 ∉ errs := fun hm => by have := h2 _ hm; omega
  have h0 : errs.count (i + 1) = 0 := List.count_eq_zero_of_not_mem hnot
  refine ⟨?_, ?_, ?_, ?_⟩
  · unfold List.Sorted
    rw [List.pairwise_append]
    refine ⟨h1, List.pairwise_singleton _ _, ?_⟩
    intro a ha b hb
    rw [List.mem_singleton] at hb
    have := h2 a ha
    omega
  · intro m hm
    rw [List.mem_append, List.mem_singleton] at hm
    rcases hm with hm | hm
    · have := h2 m hm; omega
    · omega
  · rw [List.count_append, h0, List.count_singleton]
    split <;> omega
  · intro m
    rw [List.count_append, List.count_singleton]
    by_cases hm : x = m
    · have hb : (x == m) = true := by simpa using hm
      rw [hb]
      subst hm
      rcases hx with hx | hx
      · subst hx; simp only [if_true]; omega
      · subst hx; simp only [if_true]; omega
    · have hb : (x == m) = false := by simpa using hm
      rw [hb]
      have := h4 m
      simp only [Bool.false_eq_true, if_false]
      omega

theorem MD032_Inv_step (s : MD032.State) (ln : Str) (i : Nat) (h : MD032.Inv i s.errors) :
    MD032.Inv (i + 1) (MD032.forLine s ln i).errors := by
  rw [MD032_forLine_errors]
  rcases MD032_checkLine_cases s ln i with hc | hc | hc
  · rw [hc]; exact MD032_Inv_keep i _ h
  · rw [hc]; exact MD032_Inv_push i i _ (Or.inl rfl) h
  · rw [hc]; exact MD032_Inv_push i (i + 1) _ (Or.inr rfl) h

theorem MD032_Inv_loop (ls : List Str) :
    ∀ (i : Nat) (s : MD032.State), MD032.Inv i s.errors →
      MD032.Inv (i + ls.length) (forEachIdx MD032.forLine i ls s).errors := by
  induction ls with
  | nil => intro i s h; simpa [forEachIdx] using h
  | cons a ls ih =>
    intro i s h
    have := ih (i + 1) _ (MD032_Inv_step s a i h)
    simp only [forEachIdx, List.length_cons]
    have he : i + (ls.length + 1) = i + 1 + ls.length := by omega
    rw [he]
    exact this

theorem MD032_Inv_init : MD032.Inv 0 MD032.init.errors := by
  refine ⟨?_, ?_, ?_, ?_⟩ <;> simp [MD032.init]

theorem MD032_errors_extend (ls : List Str) :
    ∀ (i : Nat) (s : MD032.State),
      ∃ later, (forEachIdx MD032.forLine i ls s).errors = s.errors ++ later := by
  induction ls with
  | nil => intro i s; exact ⟨[], by simp [forEachIdx]⟩
  | cons a ls ih =>
    intro i s
    obtain ⟨later, hl⟩ := ih (i + 1) (MD032.forLine s a i)
    simp only [forEachIdx]
    rw [hl, MD032_forLine_errors]
    rcases MD032_checkLine_cases s a i with hc | hc | hc
    · exact ⟨later, by rw [hc]⟩
    · exact ⟨[i] ++ later, by rw [hc, List.append_assoc]⟩
    · exact ⟨[i + 1] ++ later, by rw [hc, List.append_assoc]⟩

theorem MD032_loop_prevLine (ls : List Str) :
    ∀ (i : Nat) (s : MD032.State),
      (forEachIdx MD032.forLine i ls s).prevLine = ls.getLastD s.prevLine := by
  induction ls with
  | nil => intro i s; rfl
  | cons a ls ih =>
    intro i s
    simp only [forEachIdx]
    rw [ih, MD032_forLine_prevLine]
    cases ls <;> rfl

theorem mem_ends_plus {α : Type} [DecidableEq α] (p : α → Bool) (s t : List α) :
    t ∈ (Re.plus p).ends s ↔ ∃ u, s = u ++ t ∧ u ≠ [] ∧ ∀ c ∈ u, p c = true := by
  simp only [Re.ends, List.mem_flatMap]
  constructor
  · rintro ⟨m, hm, ht⟩
    rw [mem_clsEnds] at hm
    rw [mem_starEnds] at ht
    obtain ⟨c, rfl, hc⟩ := hm
    obtain ⟨u, rfl, hu⟩ := ht
    refine ⟨c :: u, rfl, by simp, ?_⟩
    intro d hd
    rcases List.mem_cons.mp hd with rfl | hd
    · exact hc
    · exact hu d hd
  · rintro ⟨u, rfl, hne, hu⟩
    cases u with
    | nil => exact absurd rfl hne
    | cons c u =>
      refine ⟨u ++ t, ?_, ?_⟩
      · rw [mem_clsEnds]; exact ⟨c, rfl, hu c (by simp)⟩
      · rw [mem_starEnds]; exact ⟨u, rfl, fun d hd => hu d (List.mem_cons_of_mem _ hd)⟩

theorem reListMarker_iff (s : Str) :
    reListMarker.matchStart s = true ↔ isListMarker s := by
  rw [matchStart_iff]
  unfold isListMarker
  constructor
  · rintro ⟨e, he⟩
    rw [reListMarker, mem_ends_seq] at he
    obtain ⟨m, hm1, hm2⟩ := he
    simp only [Re.ends] at hm2
    rw [mem_clsEnds] at hm2
    obtain ⟨w, rfl, hw⟩ := hm2
    rw [mem_ends_alt] at hm1
    rcases hm1 with h | h
    · left
      simp only [Re.ends] at h
      rw [mem_clsEnds] at h
      obtain ⟨c, rfl, hc⟩ := h
      refine ⟨c, w, e, rfl, ?_, hw⟩
      simpa [or_assoc] using hc
    · right
      rw [mem_ends_seq] at h
      obtain ⟨m2, h1, h2⟩ := h
      rw [mem_ends_plus] at h1
      simp only [Re.ends] at h2
      rw [mem_clsEnds] at h2
      obtain ⟨ds, rfl, hne, hds⟩ := h1
      obtain ⟨c, rfl, hc⟩ := h2
      have hc2 : c = '.' := by simpa [isChar] using hc
      subst hc2
      exact ⟨ds, w, e, rfl, hne, hds, hw⟩
  · rintro (⟨c, w, rest, rfl, hc, hw⟩ | ⟨ds, w, rest, rfl, hne, hds, hw⟩)
    · refine ⟨rest, ?_⟩
      rw [reListMarker, mem_ends_seq]
      refine ⟨w :: rest, ?_, ?_⟩
      · rw [mem_ends_alt]
        left
        simp only [Re.ends]
        rw [mem_clsEnds]
        exact ⟨c, rfl, by simpa [or_assoc] using hc⟩
      · simp only [Re.ends]
        rw [mem_clsEnds]
        exact ⟨w, rfl, hw⟩
    · refine ⟨rest, ?_⟩
      rw [reListMarker, mem_ends_seq]
      refine ⟨w :: rest, ?_, ?_⟩
      · rw [mem_ends_alt]
        right
        rw [mem_ends_seq]
        refine ⟨'.' :: w :: rest, ?_, ?_⟩
        · rw [mem_ends_plus]; exact ⟨ds, rfl, hne, hds⟩
        · simp only [Re.ends]
          rw [mem_clsEnds]
          exact ⟨'.', rfl, by simp [isChar]⟩
      · simp only [Re.ends]
        rw [mem_clsEnds]
        exact ⟨w, rfl, hw⟩

theorem reBlankStart_startReport (prev : Str) (n : Nat) :
    (if reBlankStart.matchStart prev = true then [] else [n]) = MD032.startReport prev n := by
  cases prev with
  | nil => rfl
  | cons c r =>
    by_cases hc : isSpace c = true
    · simp [MD032.startReport, hc, Re.matchStart, reBlankStart, Re.ends, clsEnds]
    · simp [MD032.startReport, hc, Re.matchStart, reBlankStart, Re.ends, clsEnds]

theorem MD032_stateAfter_snoc (pre : List Str) (ln : Str) :
    MD032.stateAfter (pre ++ [ln]) = MD032.forLine (MD032.stateAfter pre) ln pre.length := by
  unfold MD032.stateAfter
  rw [forEachIdx_append]
  simp [forEachIdx]

theorem MD032_stateAfter_prevLine (pre : List Str) :
    (MD032.stateAfter pre).prevLine = pre.getLastD [] := by
  unfold MD032.stateAfter
  rw [MD032_loop_prevLine]
  rfl

theorem MD007_foldl (step : Nat) (l : List Token) :
    ∀ s : MD007.State, (l.foldl (MD007.forToken step) s).errors
      = s.errors ++ stepFlags step s.prevIndent l := by
  induction l with
  | nil => intro s; simp [stepFlags]
  | cons t l ih =>
    intro s
    rw [List.foldl_cons, ih]
    by_cases h : s.prevIndent < indentFor t ∧ indentFor t - s.prevIndent ≠ step
    · simp [MD007.forToken, stepFlags, h]
    · simp [MD007.forToken, stepFlags, h]

theorem MD028_foldl (rest : List Token) :
    ∀ (a : Token) (errs : List Int),
      (rest.foldl MD028.forToken { prevToken := some a, errors := errs }).errors
        = errs ++ reopenFlags (a :: rest) := by
  induction rest with
  | nil => intro a errs; simp [reopenFlags]
  | cons b rest ih =>
    intro a errs
    rw [List.foldl_cons]
    have hstep : MD028.forToken { prevToken := some a, errors := errs } b
        = { prevToken := some b,
            errors := errs ++ (if a.type = "blockquote_close" ∧ b.type = "blockquote_open"
              then [(b.lineNumber : Int) - 1] else []) } := by
      unfold MD028.forToken
      by_cases h : a.type = "blockquote_close" ∧ b.type = "blockquote_open"
      · simp [h]
      · have h2 : ¬ (b.type = "blockquote_open" ∧ a.type = "blockquote_close") :=
          fun hc => h ⟨hc.2, hc.1⟩
        simp [h, h2]
    rw [hstep, ih]
    simp [reopenFlags, List.append_assoc]

theorem MD006_filter_foldl (l : List Token) :
    ∀ (seen : List Token) (errs : List Nat),
      ((MD006.filter ((opensIn seen : Int) - (closesIn seen : Int)) l).foldl
          MD006.forToken errs)
        = errs ++ topLevelFlags seen l := by
  induction l with
  | nil => intro seen errs; simp [MD006.filter, topLevelFlags]
  | cons t l ih =>
    intro seen errs
    by_cases ho : t.type = "bullet_list_open"
    · have hne : t.type ≠ "bullet_list_close" := by rw [ho]; decide
      have hcnt : (opensIn (seen ++ [t]) : Int) - (closesIn (seen ++ [t]) : Int)
          = (opensIn seen : Int) - (closesIn seen : Int) + 1 := by
        simp [opensIn, closesIn, List.countP_append, ho]
        omega
      have hft : MD006.filterToken ((opensIn seen : Int) - (closesIn seen : Int)) t
          = ((opensIn seen : Int) - (closesIn seen : Int) + 1,
              decide ((opensIn seen : Int) - (closesIn seen : Int) + 1 = 1)) := by
        simp [MD006.filterToken, ho]
      unfold MD006.filter
      rw [hft]
      by_cases heq : opensIn seen = closesIn seen
      · have h1 : ((opensIn seen : Int) - (closesIn seen : Int) + 1 = 1) := by omega
        simp only [h1, decide_True, if_true, List.foldl_cons]
        rw [← h1, ← hcnt, ih]
        by_cases hi : indentFor t = 0
        · simp [MD006.forToken, topLevelFlags, ho, heq, hi]
        · simp [MD006.forToken, topLevelFlags, ho, heq, hi]
      · have h1 : ¬ ((opensIn seen : Int) - (closesIn seen : Int) + 1 = 1) := by omega
        simp only [h1, decide_False, Bool.false_eq_true, if_false]
        rw [← hcnt, ih]
        simp [topLevelFlags, ho, heq]
    · by_cases hc : t.type = "bullet_list_close"
      · have hcnt : (opensIn (seen ++ [t]) : Int) - (closesIn (seen ++ [t]) : Int)
            = (opensIn seen : Int) - (closesIn seen : Int) - 1 := by
          simp [opensIn, closesIn, List.countP_append, ho, hc]
          omega
        have hft : MD006.filterToken ((opensIn seen : Int) - (closesIn seen : Int)) t
            = ((opensIn seen : Int) - (closesIn seen : Int) - 1, false) := by
          simp [MD006.filterToken, hc]
        unfold MD006.filter
        rw [hft, ← hcnt]
        simp only [Bool.false_eq_true, if_false]
        rw [ih]
        simp [topLevelFlags, ho]
      · have hcnt : (opensIn (seen ++ [t]) : Int) - (closesIn (seen ++ [t]) : Int)
            = (opensIn seen : Int) - (closesIn seen : Int) := by
          simp [opensIn, closesIn, List.countP_append, ho, hc]
        have hft : MD006.filterToken ((opensIn seen : Int) - (closesIn seen : Int)) t
            = ((opensIn seen : Int) - (closesIn seen : Int), false) := by
          simp [MD006.filterToken, ho, hc]
        unfold MD006.filter
        rw [hft]
        simp only [Bool.false_eq_true, if_false]
        rw [← hcnt, ih]
        simp [topLevelFlags, ho]

theorem topLevelFlags_append (a : List Token) :
    ∀ (seen b : List Token),
      topLevelFlags seen (a ++ b) = topLevelFlags seen a ++ topLevelFlags (seen ++ a) b := by
  induction a with
  | nil => intro seen b; simp [topLevelFlags]
  | cons t a ih =>
    intro seen b
    have h := ih (seen ++ [t]) b
    rw [List.append_assoc, List.singleton_append] at h
    rw [List.cons_append, topLevelFlags, topLevelFlags, h, List.append_assoc]

theorem MD005_unset_some (n : Nat) : MD005.unset (some n) = decide (n = 0) := by
  cases n with
  | zero => rfl
  | succ k => simp [MD005.unset]

theorem baselineOf_snoc (seen : List Token) (t : Token) (level : Nat) :
    baselineOf (seen ++ [t]) level
      = match baselineOf seen level with
        | some u => some u
        | none => if t.level = level ∧ indentFor t ≠ 0 then some t else none := by
  unfold baselineOf
  rw [List.find?_append]
  cases h : seen.find? (fun u => decide (u.level = level ∧ indentFor u ≠ 0)) with
  | some u => simp
  | none =>
    by_cases hc : t.level = level ∧ indentFor t ≠ 0
    · simp [List.find?, hc]
    · simp only [Option.none_or, if_neg hc]
      simp [List.find?, hc]

theorem baselineOf_nonzero (seen : List Token) (level : Nat) (u : Token)
    (h : baselineOf seen level = some u) : indentFor u ≠ 0 := by
  have := List.find?_some h
  simp at this
  exact this.2

theorem MD005_step (seen : List Token) (s : MD005.State) (t : Token)
    (hinv : MD005.Agrees seen s) :
    MD005.Agrees (seen ++ [t]) (MD005.forToken s t) ∧
    (MD005.forToken s t).errors = s.errors ++
      (match baselineOf seen t.level with
        | some u => if indentFor t ≠ indentFor u then [t.lineNumber] else []
        | none => []) := by
  have hb := hinv t.level
  cases hbl : baselineOf seen t.level with
  | none =>
    rw [hbl] at hb
    simp only at hb
    have hstep : MD005.forToken s t
        = { s with indentLevels :=
              Function.update s.indentLevels t.level (some (indentFor t)) } := by
      unfold MD005.forToken
      simp [hb]
    rw [hstep]
    refine ⟨?_, by simp⟩
    intro level
    rw [baselineOf_snoc]
    by_cases hl : level = t.level
    · subst hl
      rw [hbl]
      by_cases hz : indentFor t = 0
      · simp [hz, MD005_unset_some]
      · simp [hz]
    · have hl2 : ¬ (t.level = level) := fun h => hl h.symm
      have hi := hinv level
      cases hbl2 : baselineOf seen level with
      | none =>
        rw [hbl2] at hi
        simp only at hi
        simp [hl2, Function.update_noteq hl, hi]
      | some u =>
        rw [hbl2] at hi
        simp only at hi
        simp [Function.update_noteq hl, hi]
  | some u =>
    rw [hbl] at hb
    simp only at hb
    have hu : indentFor u ≠ 0 := baselineOf_nonzero seen t.level u hbl
    have hun : MD005.unset (s.indentLevels t.level) = false := by
      rw [hb, MD005_unset_some]
      simpa using hu
    have hind : (MD005.forToken s t).indentLevels = s.indentLevels := by
      unfold MD005.forToken
      simp only [hun, Bool.false_eq_true, if_false]
      split <;> rfl
    have herr : (MD005.forToken s t).errors
        = s.errors ++ (if indentFor t ≠ indentFor u then [t.lineNumber] else []) := by
      have hun2 : MD005.unset (some (indentFor u)) = false := by rw [← hb]; exact hun
      unfold MD005.forToken
      by_cases hd : indentFor t = indentFor u
      · simp [hb, hun2, hd]
      · simp [hb, hun2, hd]
    refine ⟨?_, herr⟩
    intro level
    rw [baselineOf_snoc, hind]
    have hi := hinv level
    cases hbl2 : baselineOf seen level with
    | none =>
      rw [hbl2] at hi
      simp only at hi
      have hl2 : ¬ (t.level = level) := by
        intro h
        rw [h] at hbl
        rw [hbl] at hbl2
        exact absurd hbl2 (by simp)
      simp [hl2, hi]
    | some v =>
      rw [hbl2] at hi
      simp only at hi
      simp [hi]

theorem MD005_foldl (items : List Token) :
    ∀ (seen : List Token) (s : MD005.State), MD005.Agrees seen s →
      (items.foldl MD005.forToken s).errors = s.errors ++ baselineFlags seen items := by
  induction items with
  | nil => intro seen s _; simp [baselineFlags]
  | cons t items ih =>
    intro seen s hinv
    obtain ⟨h1, h2⟩ := MD005_step seen s t hinv
    rw [List.foldl_cons, ih (seen ++ [t]) _ h1, h2, baselineFlags, List.append_assoc]

theorem baselineOf_eq_firstOf (seen : List Token) (level : Nat)
    (h : ∀ u ∈ seen, indentFor u ≠ 0) : baselineOf seen level = firstOf seen level := by
  induction seen with
  | nil => rfl
  | cons u seen ih =>
    have hu : indentFor u ≠ 0 := h u (by simp)
    have ih2 := ih (fun v hv => h v (List.mem_cons_of_mem _ hv))
    unfold baselineOf firstOf at ih2 ⊢
    by_cases hl : u.level = level
    · simp [List.find?, hl, hu]
    · have e1 : decide (u.level = level ∧ indentFor u ≠ 0) = false := by simp [hl]
      have e2 : decide (u.level = level) = false := by simp [hl]
      simp only [List.find?, e1, e2]
      exact ih2

theorem baselineFlags_eq_firstItemFlags (items : List Token) :
    ∀ seen : List Token, (∀ u ∈ seen, indentFor u ≠ 0) → (∀ u ∈ items, indentFor u ≠ 0) →
      baselineFlags seen items = firstItemFlags seen items := by
  induction items with
  | nil => intro seen _ _; rfl
  | cons t items ih =>
    intro seen hs hi
    have ht : indentFor t ≠ 0 := hi t (by simp)
    have hs2 : ∀ u ∈ seen ++ [t], indentFor u ≠ 0 := by
      intro u hu
      rcases List.mem_append.mp hu with h | h
      · exact hs u h
      · rw [List.mem_singleton] at h; rw [h]; exact ht
    rw [baselineFlags, firstItemFlags, baselineOf_eq_firstOf seen t.level hs,
      ih (seen ++ [t]) hs2 (fun u hu => hi u (List.mem_cons_of_mem _ hu))]

theorem filterChildren_single (children : List Child) (a : String) :
    filterChildren children a none = children.filter (fun c => decide (c.type = a)) := by
  unfold filterChildren
  congr 1
  funext c
  by_cases h : c.type = a <;> simp [h]

theorem MD011_forToken_eq (errors : List Nat) (t : Token) :
    MD011.forToken errors t = errors ++ reversedLinkFlags t := by
  unfold MD011.forToken reversedLinkFlags
  rw [filterChildren_single]
  exact foldl_flag (MD011.forChild t) (fun child => reReversedLink.search child.content)
    (fun _ => t.lineNumber) (by intro e a; rfl) _ errors

theorem MD011_foldl (l : List Token) :
    ∀ errs : List Nat, l.foldl MD011.forToken errs = errs ++ l.flatMap reversedLinkFlags := by
  induction l with
  | nil => intro errs; simp
  | cons t l ih =>
    intro errs
    rw [List.foldl_cons, ih, MD011_forToken_eq]
    simp [List.flatMap_cons, List.append_assoc]

theorem mem_ends_cls {α : Type} [DecidableEq α] (p : α → Bool) (s t : List α) :
    t ∈ (Re.cls p).ends s ↔ ∃ c, s = c :: t ∧ p c = true := by
  simp only [Re.ends]
  exact mem_clsEnds p s t

theorem mem_ends_char (a : Char) (s t : Str) :
    t ∈ (Re.cls (isChar a)).ends s ↔ s = a :: t := by
  rw [mem_ends_cls]
  constructor
  · rintro ⟨c, rfl, hc⟩
    have : c = a := by simpa [isChar] using hc
    rw [this]
  · rintro rfl
    exact ⟨a, rfl, by simp [isChar]⟩

theorem reReversedLink_iff (s : Str) :
    reReversedLink.search s = true ↔ hasReversedLink s := by
  rw [search_iff]
  unfold hasReversedLink
  constructor
  · rintro ⟨u, t, hs, hm⟩
    rw [matchStart_iff] at hm
    obtain ⟨e, he⟩ := hm
    rw [reReversedLink, mem_ends_seq] at he
    obtain ⟨m1, h1, he⟩ := he
    rw [mem_ends_seq] at he
    obtain ⟨m2, h2, he⟩ := he
    rw [mem_ends_seq] at he
    obtain ⟨m3, h3, he⟩ := he
    rw [mem_ends_seq] at he
    obtain ⟨m4, h4, he⟩ := he
    rw [mem_ends_seq] at he
    obtain ⟨m5, h5, h6⟩ := he
    rw [mem_ends_char] at h1 h3 h4 h6
    rw [mem_ends_plus] at h2 h5
    obtain ⟨a, ha, hane, hall⟩ := h2
    obtain ⟨b, hb, hbne, hbll⟩ := h5
    refine ⟨u, a, b, e, ?_, hane, ?_, hbne, ?_⟩
    · rw [hs, h1, ha, h3, h4, hb, h6]
    · intro c hc; simpa using hall c hc
    · intro c hc; simpa using hbll c hc
  · rintro ⟨pre, a, b, post, rfl, hane, hall, hbne, hbll⟩
    refine ⟨pre, _, rfl, ?_⟩
    rw [matchStart_iff]
    refine ⟨post, ?_⟩
    rw [reReversedLink, mem_ends_seq]
    refine ⟨a ++ ')' :: '[' :: (b ++ ']' :: post), (mem_ends_char _ _ _).mpr rfl, ?_⟩
    rw [mem_ends_seq]
    refine ⟨')' :: '[' :: (b ++ ']' :: post), ?_, ?_⟩
    · rw [mem_ends_plus]
      exact ⟨a, rfl, hane, fun c hc => by simpa using hall c hc⟩
    rw [mem_ends_seq]
    refine ⟨'[' :: (b ++ ']' :: post), (mem_ends_char _ _ _).mpr rfl, ?_⟩
    rw [mem_ends_seq]
    refine ⟨b ++ ']' :: post, (mem_ends_char _ _ _).mpr rfl, ?_⟩
    rw [mem_ends_seq]
    refine ⟨']' :: post, ?_, (mem_ends_char _ _ _).mpr rfl⟩
    rw [mem_ends_plus]
    exact ⟨b, rfl, hbne, fun c hc => by simpa using hbll c hc⟩

theorem forEachIdx_sorted {α σ : Type} (f : σ → α → Nat → σ) (errs : σ → List Nat) (c : Nat)
    (hf : ∀ s a i, errs (f s a i) = errs s ∨ errs (f s a i) = errs s ++ [i + c])
    (ls : List α) :
    ∀ (i : Nat) (s : σ), (errs s).Sorted (fun a b => a < b) → (∀ m ∈ errs s, m < i + c) →
      (errs (forEachIdx f i ls s)).Sorted (fun a b => a < b) ∧
      ∀ m ∈ errs (forEachIdx f i ls s),
        (m ∈ errs s ∨ i + c ≤ m) ∧ m < i + ls.length + c := by
  induction ls with
  | nil =>
    intro i s hs hb
    refine ⟨by simpa [forEachIdx] using hs, ?_⟩
    intro m hm
    simp only [forEachIdx] at hm
    exact ⟨Or.inl hm, by have := hb m hm; simp; omega⟩
  | cons a ls ih =>
    intro i s hs hb
    have hs1 : (errs (f s a i)).Sorted (fun a b => a < b) := by
      rcases hf s a i with h | h
      · rw [h]; exact hs
      · rw [h]
        unfold List.Sorted
        rw [List.pairwise_append]
        refine ⟨hs, List.pairwise_singleton _ _, ?_⟩
        intro x hx y hy
        rw [List.mem_singleton] at hy
        have := hb x hx
        omega
    have hmem : ∀ m ∈ errs (f s a i), m ∈ errs s ∨ m = i + c := by
      intro m hm
      rcases hf s a i with h | h
      · rw [h] at hm; exact Or.inl hm
      · rw [h, List.mem_append, List.mem_singleton] at hm; exact hm
    have hb1 : ∀ m ∈ errs (f s a i), m < i + 1 + c := by
      intro m hm
      rcases hmem m hm with h | h
      · have := hb m h; omega
      · omega
    obtain ⟨h1, h2⟩ := ih (i + 1) (f s a i) hs1 hb1
    simp only [forEachIdx, List.length_cons]
    refine ⟨h1, ?_⟩
    intro m hm
    obtain ⟨h3, h4⟩ := h2 m hm
    refine ⟨?_, by omega⟩
    rcases h3 with h3 | h3
    · rcases hmem m h3 with h | h
      · exact Or.inl h
      · exact Or.inr (by omega)
    · exact Or.inr (by omega)

theorem flag_loop_sorted (f : List Nat → Str → Nat → List Nat) (p : Str → Bool)
    (hf : ∀ e a i, f e a i = if p a = true then e ++ [i + 1] else e) (ls : List Str) :
    (forEachIdx f 0 ls []).Sorted (fun a b => a < b) ∧
    ∀ m ∈ forEachIdx f 0 ls [], 1 ≤ m ∧ m ≤ ls.length := by
  have h := forEachIdx_sorted f (fun e => e) 1
    (by
      intro s a i
      simp only [hf]
      by_cases hp : p a = true
      · right; rw [if_pos hp]
      · left; rw [if_neg hp])
    ls 0 [] (by simp) (by simp)
  refine ⟨h.1, ?_⟩
  intro m hm
  have := h.2 m hm
  simp at this
  omega

theorem reTrailingSpace_iff (ln : Str) :
    reTrailingSpace.search ln = true ↔ ∃ c, ln.getLast? = some c ∧ isSpace c = true := by
  rw [search_iff]
  constructor
  · rintro ⟨u, t, hs, hm⟩
    rw [matchStart_iff] at hm
    obtain ⟨e, he⟩ := hm
    rw [reTrailingSpace, mem_ends_seq] at he
    obtain ⟨m, h1, h2⟩ := he
    rw [mem_ends_cls] at h1
    rw [mem_ends_eol] at h2
    obtain ⟨c, rfl, hc⟩ := h1
    obtain ⟨rfl, rfl⟩ := h2
    exact ⟨c, by rw [hs, List.getLast?_concat], hc⟩
  · rintro ⟨c, hl, hc⟩
    rw [List.getLast?_eq_some_iff] at hl
    obtain ⟨ys, rfl⟩ := hl
    refine ⟨ys, [c], rfl, ?_⟩
    rw [matchStart_iff]
    refine ⟨[], ?_⟩
    rw [reTrailingSpace, mem_ends_seq]
    exact ⟨[], (mem_ends_cls _ _ _).mpr ⟨c, rfl, hc⟩, (mem_ends_eol _ _).mpr ⟨rfl, rfl⟩⟩

theorem MD012_forLine_cases (ex : List Nat) (s : MD012.State) (ln : Str) (i : Nat) :
    (MD012.forLine ex s ln i).errors = s.errors ∨
    (MD012.forLine ex s ln i).errors = s.errors ++ [i + 1] := by
  unfold MD012.forLine
  simp only
  split
  · right; rfl
  · left; rfl

theorem MD012_sorted (params : Params) :
    (MD012 params).Sorted (fun a b => a < b) ∧
    ∀ m ∈ MD012 params, 1 ≤ m ∧ m ≤ params.lines.length := by
  have h := forEachIdx_sorted (MD012.forLine (MD012.exclusions params))
    MD012.State.errors 1 (MD012_forLine_cases _) params.lines 0
    { prevLine := ['-'], errors := [] } (by simp) (by simp)
  refine ⟨h.1, ?_⟩
  intro m hm
  have := h.2 m hm
  simp at this
  omega

theorem MD012_mem (params : Params) (i : Nat) (ln : Str)
    (hi : params.lines[i]? = some ln) :
    i + 1 ∈ MD012 params ↔
      trim ln = [] ∧ 1 ≤ i ∧ (∃ p, params.lines[i - 1]? = some p ∧ trim p = []) ∧
        ¬ ∃ t ∈ params.tokens, (t.type = "code_block" ∨ t.type = "fence") ∧
          t.lines.1 ≤ i ∧ i < t.lines.2 := by
  unfold MD012
  rw [MD012_loop, ← mem_exclusions]
  simp only [List.not_mem_nil, false_or, Nat.zero_add]
  constructor
  · rintro ⟨k, l, hk, hik, ht, hp, hx⟩
    have hki : k = i := by omega
    subst hki
    rw [hi] at hk
    simp only [Option.some.injEq] at hk
    subst hk
    cases k with
    | zero => simp at hp
    | succ k =>
      refine ⟨ht, by omega, ?_, hx⟩
      simp only [List.getElem?_cons_succ, List.getElem?_map, Option.map_eq_some'] at hp
      simpa using hp
  · rintro ⟨ht, h1, ⟨p, hp, hpt⟩, hx⟩
    refine ⟨i, ln, hi, rfl, ht, ?_, hx⟩
    cases i with
    | zero => omega
    | succ k =>
      simp only [List.getElem?_cons_succ, List.getElem?_map, Option.map_eq_some']
      exact ⟨p, by simpa using hp, hpt⟩

theorem sorted_lt_ext (l1 l2 : List Nat) (h1 : l1.Sorted (fun a b => a < b))
    (h2 : l2.Sorted (fun a b => a < b)) (h : ∀ m, m ∈ l1 ↔ m ∈ l2) : l1 = l2 := by
  have n1 : l1.Nodup := h1.imp (fun hab => Nat.ne_of_lt hab)
  have n2 : l2.Nodup := h2.imp (fun hab => Nat.ne_of_lt hab)
  have hp : l1.Perm l2 := (List.perm_ext_iff_of_nodup n1 n2).mpr h
  have s1 : l1.Sorted (fun a b => a ≤ b) := h1.imp (fun hab => Nat.le_of_lt hab)
  have s2 : l2.Sorted (fun a b => a ≤ b) := h2.imp (fun hab => Nat.le_of_lt hab)
  exact List.eq_of_perm_of_sorted hp s1 s2

theorem mem_ends_lit3 (a b c : Char) (s e : Str) :
    e ∈ (Re.lit [a, b, c]).ends s ↔ s = a :: b :: c :: e := by
  simp only [Re.lit]
  rw [mem_ends_seq]
  constructor
  · rintro ⟨m1, h1, h⟩
    rw [mem_ends_seq] at h
    obtain ⟨m2, h2, h⟩ := h
    rw [mem_ends_seq] at h
    obtain ⟨m3, h3, h4⟩ := h
    rw [mem_ends_char] at h1 h2 h3
    simp only [Re.ends, List.mem_singleton] at h4
    rw [h1, h2, h3, h4]
  · rintro rfl
    refine ⟨b :: c :: e, (mem_ends_char _ _ _).mpr rfl, ?_⟩
    rw [mem_ends_seq]
    refine ⟨c :: e, (mem_ends_char _ _ _).mpr rfl, ?_⟩
    rw [mem_ends_seq]
    exact ⟨e, (mem_ends_char _ _ _).mpr rfl, by simp [Re.ends]⟩

theorem reFence_iff (s : Str) : reFence.matchStart s = true ↔ startsWithFence s := by
  rw [matchStart_iff]
  unfold startsWithFence reFence
  constructor
  · rintro ⟨e, he⟩
    rw [mem_ends_alt, mem_ends_lit3, mem_ends_lit3] at he
    exact ⟨e, he⟩
  · rintro ⟨e, he⟩
    exact ⟨e, by rw [mem_ends_alt, mem_ends_lit3, mem_ends_lit3]; exact he⟩

theorem codeAfter_eq (ls : List Str) :
    ∀ b : Bool, codeAfter b ls
      = (b != decide (ls.countP (fun l => reFence.matchStart l) % 2 = 1)) := by
  induction ls with
  | nil => intro b; simp [codeAfter]
  | cons l ls ih =>
    intro b
    rw [codeAfter, ih]
    by_cases hf : reFence.matchStart l = true
    · rw [List.countP_cons_of_pos _ _ hf]
      rcases Nat.mod_two_eq_zero_or_one (ls.countP (fun l => reFence.matchStart l))
        with h | h
      · have h2 : (ls.countP (fun l => reFence.matchStart l) + 1) % 2 = 1 := by omega
        cases b <;> simp [hf, h, h2]
      · have h2 : (ls.countP (fun l => reFence.matchStart l) + 1) % 2 = 0 := by omega
        cases b <;> simp [hf, h, h2]
    · rw [List.countP_cons_of_neg _ _ hf]
      simp [hf]

theorem MD031_condition_eq (P : List Str) (b : Bool) (j : Nat) (h1 : 1 ≤ j)
    (h2 : j + 1 < P.length) :
    MD031.condition P b j = some (MD031.flagAt P b j) := by
  have hlo : ¬ ((j : Int) - 1 < 0) := by omega
  have hhi : ¬ ((j : Int) + 1 < 0) := by omega
  have e1 : ((j : Int) - 1).toNat = j - 1 := by omega
  have e2 : ((j : Int) + 1).toNat = j + 1 := by omega
  have g1 : P[j - 1]? = some (P[j - 1]) := List.getElem?_eq_getElem (by omega)
  have g2 : P[j + 1]? = some (P[j + 1]) := List.getElem?_eq_getElem h2
  unfold MD031.condition MD031.lengthAt MD031.flagAt nonEmptyAt
  cases b with
  | true =>
    simp only [if_true, hlo, if_false, e1, g1, Option.map_some', Option.some_bind]
    by_cases hx : (P[j - 1]).length = 0
    · simp [hx]
    · simp [hx]
  | false =>
    simp [hhi, e2, g2]

theorem MD031_step (P : List Str)
    (H : ∀ j l, P[j]? = some l → reFence.matchStart l = true → 1 ≤ j ∧ j + 1 < P.length)
    (s : MD031.State) (a : Str) (j : Nat) (ha : P[j]? = some a) :
    MD031.forLine P (some s) a j
      = some { inCode := if reFence.matchStart a then !s.inCode else s.inCode,
               errors := if reFence.matchStart a = true ∧ MD031.flagAt P (!s.inCode) j = true
                 then s.errors ++ [j] else s.errors } := by
  unfold MD031.forLine
  by_cases hf : reFence.matchStart a = true
  · obtain ⟨h1, h2⟩ := H j a ha hf
    simp only [Option.some_bind, hf, if_true, MD031_condition_eq P _ j h1 h2,
      Option.map_some', true_and]
  · simp [hf]

theorem MD031_loop (P : List Str)
    (H : ∀ j l, P[j]? = some l → reFence.matchStart l = true → 1 ≤ j ∧ j + 1 < P.length)
    (rest : List Str) :
    ∀ (done : List Str) (s : MD031.State), P = done ++ rest →
      s.errors.Sorted (fun a b => a < b) → (∀ m ∈ s.errors, m < done.length) →
      ∃ s2, forEachIdx (MD031.forLine P) done.length rest (some s) = some s2 ∧
        s2.errors.Sorted (fun a b => a < b) ∧
        ∀ m, m ∈ s2.errors ↔
          m ∈ s.errors ∨ ∃ k l, rest[k]? = some l ∧ m = done.length + k ∧
            reFence.matchStart l = true ∧
            MD031.flagAt P (codeAfter s.inCode (rest.take (k + 1))) m = true := by
  induction rest with
  | nil =>
    intro done s _ hs _
    exact ⟨s, rfl, hs, by simp⟩
  | cons a rest ih =>
    intro done s hP hs hb
    have ha : P[done.length]? = some a := by
      rw [hP, List.getElem?_append_right (Nat.le_refl _)]; simp
    have hstep := MD031_step P H s a done.length ha
    have hP2 : P = (done ++ [a]) ++ rest := by rw [hP]; simp
    have hlen : (done ++ [a]).length = done.length + 1 := by simp
    have hs1 : (if reFence.matchStart a = true ∧
          MD031.flagAt P (!s.inCode) done.length = true
        then s.errors ++ [done.length] else s.errors).Sorted (fun a b => a < b) := by
      split
      · unfold List.Sorted
        rw [List.pairwise_append]
        refine ⟨hs, List.pairwise_singleton _ _, ?_⟩
        intro x hx y hy
        rw [List.mem_singleton] at hy
        have := hb x hx
        omega
      · exact hs
    have hb1 : ∀ m ∈ (if reFence.matchStart a = true ∧
          MD031.flagAt P (!s.inCode) done.length = true
        then s.errors ++ [done.length] else s.errors), m < (done ++ [a]).length := by
      intro m hm
      rw [hlen]
      split at hm
      · rw [List.mem_append, List.mem_singleton] at hm
        rcases hm with h | h
        · have := hb m h; omega
        · omega
      · have := hb m hm; omega
    obtain ⟨s2, h1, h2, h3⟩ := ih (done ++ [a])
      { inCode := if reFence.matchStart a then !s.inCode else s.inCode,
        errors := if reFence.matchStart a = true ∧
            MD031.flagAt P (!s.inCode) done.length = true
          then s.errors ++ [done.length] else s.errors } hP2 hs1 hb1
    rw [hlen] at h1
    refine ⟨s2, ?_, h2, ?_⟩
    · rw [forEachIdx, hstep]; exact h1
    · intro m
      rw [h3]
      simp only [hlen]
      constructor
      · rintro (hm | ⟨k, l, hk, hmk, hfl, hflag⟩)
        · split at hm
          · rename_i hc
            rw [List.mem_append, List.mem_singleton] at hm
            rcases hm with hm | hm
            · exact Or.inl hm
            · refine Or.inr ⟨0, a, by simp, by omega, hc.1, ?_⟩
              simp only [Nat.zero_add, List.take_succ_cons, List.take_zero, codeAfter, hc.1,
                if_true]
              rw [hm]; exact hc.2
          · exact Or.inl hm
        · refine Or.inr ⟨k + 1, l, by simpa using hk, by omega, hfl, ?_⟩
          simpa [codeAfter] using hflag
      · rintro (hm | ⟨k, l, hk, hmk, hfl, hflag⟩)
        · left
          split
          · exact List.mem_append_left _ hm
          · exact hm
        · cases k with
          | zero =>
            left
            simp only [List.getElem?_cons_zero, Option.some.injEq] at hk
            subst hk
            simp only [Nat.zero_add, List.take_succ_cons, List.take_zero, codeAfter, hfl,
              if_true] at hflag
            have hmj : m = done.length := by omega
            rw [hmj] at hflag
            rw [if_pos ⟨hfl, hflag⟩, List.mem_append, List.mem_singleton]
            right; exact hmj
          | succ k =>
            right
            refine ⟨k, l, by simpa using hk, by omega, hfl, ?_⟩
            simpa [codeAfter] using hflag

theorem padAndTrim_length (lines : List Str) :
    (padAndTrim lines).length = lines.length + 2 := by
  simp [padAndTrim]

theorem padAndTrim_zero (lines : List Str) : (padAndTrim lines)[0]? = some [] := by
  simp [padAndTrim]

theorem padAndTrim_succ (lines : List Str) (j : Nat) :
    (padAndTrim lines)[j + 1]?
      = if j < lines.length then (lines[j]?).map trim
        else if j = lines.length then some [] else none := by
  have h : padAndTrim lines = [] :: (lines.map trim ++ [[]]) := by simp [padAndTrim]
  rw [h, List.getElem?_cons_succ]
  by_cases h1 : j < lines.length
  · rw [if_pos h1, List.getElem?_append_left (by simpa using h1), List.getElem?_map]
  · rw [if_neg h1, List.getElem?_append_right (by simpa using h1)]
    by_cases h2 : j = lines.length
    · rw [if_pos h2]; simp [h2]
    · rw [if_neg h2]
      have : 1 ≤ j - (lines.map trim).length := by simp; omega
      rw [List.getElem?_eq_none (by simpa using this)]

theorem reFence_nil : reFence.matchStart [] = false := by decide

theorem padAndTrim_safe (lines : List Str) :
    ∀ j l, (padAndTrim lines)[j]? = some l → reFence.matchStart l = true →
      1 ≤ j ∧ j + 1 < (padAndTrim lines).length := by
  intro j l hl hf
  rw [padAndTrim_length]
  cases j with
  | zero =>
    rw [padAndTrim_zero] at hl
    simp only [Option.some.injEq] at hl
    rw [← hl, reFence_nil] at hf
    exact absurd hf (by decide)
  | succ j =>
    rw [padAndTrim_succ] at hl
    by_cases h1 : j < lines.length
    · omega
    · rw [if_neg h1] at hl
      by_cases h2 : j = lines.length
      · rw [if_pos h2] at hl
        simp only [Option.some.injEq] at hl
        rw [← hl, reFence_nil] at hf
        exact absurd hf (by decide)
      · rw [if_neg h2] at hl
        exact absurd hl (by simp)

theorem nonEmptyAt_pad_zero (lines : List Str) : nonEmptyAt (padAndTrim lines) 0 = false := by
  unfold nonEmptyAt
  rw [padAndTrim_zero]
  rfl

theorem nonEmptyAt_pad_succ (lines : List Str) (i : Nat) :
    nonEmptyAt (padAndTrim lines) (i + 1) = true ↔
      ∃ p, lines[i]? = some p ∧ trim p ≠ [] := by
  unfold nonEmptyAt
  rw [padAndTrim_succ]
  by_cases h1 : i < lines.length
  · rw [if_pos h1, List.getElem?_eq_getElem h1]
    simp [List.length_eq_zero]
  · rw [if_neg h1, List.getElem?_eq_none (by omega)]
    by_cases h2 : i = lines.length
    · simp [h2]
    · simp [h2]

theorem codeAfter_pad (lines : List Str) (j : Nat) (hj : j < lines.length) :
    codeAfter false ((padAndTrim lines).take (j + 2))
      = decide (fenceCount lines (j + 1) % 2 = 1) := by
  have h : padAndTrim lines = [] :: (lines.map trim ++ [[]]) := by simp [padAndTrim]
  have ht : (lines.map trim ++ [[]]).take (j + 1) = (lines.take (j + 1)).map trim := by
    rw [List.take_append_of_le_length (by simp; omega), List.map_take]
  rw [h, List.take_succ_cons, ht, codeAfter, reFence_nil]
  simp only [Bool.false_eq_true, if_false]
  rw [codeAfter_eq]
  simp [fenceCount]

theorem MD031_result (params : Params) :
    ∃ errs, MD031 params = some errs ∧ errs.Sorted (fun a b => a < b) ∧
      ∀ m, m ∈ errs ↔
        ∃ ln, 1 ≤ m ∧ params.lines[m - 1]? = some ln ∧
          reFence.matchStart (trim ln) = true ∧
          ((fenceCount params.lines m % 2 = 1 ∧
              ∃ p, 2 ≤ m ∧ params.lines[m - 2]? = some p ∧ trim p ≠ []) ∨
           (fenceCount params.lines m % 2 = 0 ∧
              ∃ q, params.lines[m]? = some q ∧ trim q ≠ [])) := by
  obtain ⟨s2, h1, h2, h3⟩ := MD031_loop (padAndTrim params.lines)
    (padAndTrim_safe params.lines) (padAndTrim params.lines) []
    { inCode := false, errors := [] } (by simp) (by simp) (by simp)
  refine ⟨s2.errors, ?_, h2, ?_⟩
  · unfold MD031
    simp only [List.length_nil] at h1
    rw [h1]
    rfl
  · intro m
    rw [h3]
    simp only [List.not_mem_nil, false_or, List.length_nil, Nat.zero_add]
    constructor
    · rintro ⟨k, l, hk, hmk, hfl, hflag⟩
      subst hmk
      obtain ⟨hge, hlt⟩ := padAndTrim_safe params.lines m l hk hfl
      rw [padAndTrim_length] at hlt
      obtain ⟨j, rfl⟩ : ∃ j, m = j + 1 := ⟨m - 1, by omega⟩
      have hj : j < params.lines.length := by omega
      rw [padAndTrim_succ, if_pos hj, List.getElem?_eq_getElem hj] at hk
      simp only [Option.map_some', Option.some.injEq] at hk
      refine ⟨params.lines[j], by omega, by simp [List.getElem?_eq_getElem hj], ?_, ?_⟩
      · rw [hk]; exact hfl
      · rw [codeAfter_pad params.lines j hj] at hflag
        rcases Nat.mod_two_eq_zero_or_one (fenceCount params.lines (j + 1)) with hc | hc
        · right
          refine ⟨hc, ?_⟩
          have hd : decide (fenceCount params.lines (j + 1) % 2 = 1) = false := by
            simp [hc]
          rw [hd] at hflag
          simp only [MD031.flagAt, Bool.false_eq_true, if_false] at hflag
          exact (nonEmptyAt_pad_succ params.lines (j + 1)).mp hflag
        · left
          refine ⟨hc, ?_⟩
          have hd : decide (fenceCount params.lines (j + 1) % 2 = 1) = true := by
            simp [hc]
          rw [hd] at hflag
          simp only [MD031.flagAt, if_true, Nat.add_sub_cancel] at hflag
          cases j with
          | zero =>
            rw [nonEmptyAt_pad_zero] at hflag
            exact absurd hflag (by decide)
          | succ i =>
            obtain ⟨p, hp, hpt⟩ := (nonEmptyAt_pad_succ params.lines i).mp hflag
            exact ⟨p, by omega, by simpa using hp, hpt⟩
    · rintro ⟨ln, hge, hln, hfl, hcase⟩
      obtain ⟨j, rfl⟩ : ∃ j, m = j + 1 := ⟨m - 1, by omega⟩
      simp only [Nat.add_sub_cancel] at hln
      have hj : j < params.lines.length := by
        by_contra hc
        rw [List.getElem?_eq_none (by omega)] at hln
        exact absurd hln (by simp)
      refine ⟨j + 1, trim ln, ?_, rfl, hfl, ?_⟩
      · rw [padAndTrim_succ, if_pos hj, hln]; rfl
      · rw [codeAfter_pad params.lines j hj]
        rcases hcase with ⟨hc, p, hp2, hp, hpt⟩ | ⟨hc, q, hq, hqt⟩
        · have hd : decide (fenceCount params.lines (j + 1) % 2 = 1) = true := by
            simp [hc]
          rw [hd]
          simp only [MD031.flagAt, if_true, Nat.add_sub_cancel]
          obtain ⟨i, rfl⟩ : ∃ i, j = i + 1 := ⟨j - 1, by omega⟩
          exact (nonEmptyAt_pad_succ params.lines i).mpr ⟨p, by simpa using hp, hpt⟩
        · have hd : decide (fenceCount params.lines (j + 1) % 2 = 1) = false := by
            simp [hc]
          rw [hd]
          simp only [MD031.flagAt, Bool.false_eq_true, if_false]
          exact (nonEmptyAt_pad_succ params.lines (j + 1)).mpr ⟨q, hq, hqt⟩

theorem MD031_lengthAt_isSome (P : List Str) (j : Nat) (h1 : 1 ≤ j) (h2 : j + 1 < P.length) :
    (MD031.lengthAt P ((j : Int) - 1)).isSome = true ∧
    (MD031.lengthAt P ((j : Int) + 1)).isSome = true := by
  have hlo : ¬ ((j : Int) - 1 < 0) := by omega
  have hhi : ¬ ((j : Int) + 1 < 0) := by omega
  have e1 : ((j : Int) - 1).toNat = j - 1 := by omega
  have e2 : ((j : Int) + 1).toNat = j + 1 := by omega
  have g1 : P[j - 1]? = some (P[j - 1]) := List.getElem?_eq_getElem (by omega)
  have g2 : P[j + 1]? = some (P[j + 1]) := List.getElem?_eq_getElem h2
  unfold MD031.lengthAt
  rw [if_neg hlo, if_neg hhi, e1, e2, g1, g2]
  exact ⟨rfl, rfl⟩

/-! ## The claims -/

/-- C1: evaluation of `MD005` at two list items of the same level whose lines have
indentation 0 and 2: nothing is reported, so the second item is not flagged although its
indentation differs from the one of the first item of its level (the stored indentation 0
is taken for an unset entry and overwritten). -/
theorem MD005_zero_baseline_overwritten :
    indentFor (mkToken "list_item_open" 1 "*   a" (0, 1) 1 0) = 0 ∧
    indentFor (mkToken "list_item_open" 2 "  * b" (1, 2) 1 0) = 2 ∧
    MD005 (ofTokens [mkToken "list_item_open" 1 "*   a" (0, 1) 1 0,
      mkToken "list_item_open" 2 "  * b" (1, 2) 1 0]) = [] ∧
    MD005 (ofTokens [mkToken "list_item_open" 1 "*   a" (0, 1) 1 0,
      mkToken "list_item_open" 2 "  * b" (1, 2) 1 0,
      mkToken "list_item_open" 3 "* c" (2, 3) 1 0]) = [3] := by
  decide

/-- C2: evaluation of `MD004` at list items of an unordered and an ordered list, without a
style option.  After the bullet item `* a` the ordered item `1. b`, which has no style, is
reported; and when the ordered item `1. a` comes first the target style is `null` and
every bullet item after it is reported. -/
theorem MD004_flags_item_without_style :
    unorderedListStyleFor (mkToken "list_item_open" 2 "1. b" (1, 2) 1 0) = none ∧
    MD004 (ofTokens [mkToken "list_item_open" 1 "* a" (0, 1) 1 0,
      mkToken "list_item_open" 2 "1. b" (1, 2) 1 0]) = [2] ∧
    MD004 (ofTokens [mkToken "list_item_open" 1 "1. a" (0, 1) 1 0,
      mkToken "list_item_open" 2 "* b" (1, 2) 1 0,
      mkToken "list_item_open" 3 "* c" (2, 3) 1 0]) = [2, 3] := by
  decide

/-- C5 (counterexample): the one-line heading `# H # ` ends with a space, not with `#`,
and its style is "atx_closed". -/
theorem headingStyleFor_trailing_space :
    ((mkToken "heading_open" 1 "# H # " (0, 1) 0 1).lines.2 : Int)
      - ((mkToken "heading_open" 1 "# H # " (0, 1) 0 1).lines.1 : Int) = 1 ∧
    (mkToken "heading_open" 1 "# H # " (0, 1) 0 1).line.getLast? = some ' ' ∧
    headingStyleFor (mkToken "heading_open" 1 "# H # " (0, 1) 0 1) = "atx_closed" := by
  decide

/-- C5 (amended): for a heading token spanning exactly one line the style is "atx_closed"
if and only if its line is some text, a `#` and then only white-space characters up to the
end, and "atx" otherwise; for a heading token spanning two lines the style is
"setext". -/
theorem headingStyleFor_spec (token : Token) :
    ((token.lines.2 : Int) - (token.lines.1 : Int) = 1 →
      (headingStyleFor token = "atx_closed" ↔
        ∃ pre ws, token.line = pre ++ '#' :: ws ∧ ∀ c ∈ ws, isSpace c = true) ∧
      (headingStyleFor token = "atx" ↔
        ¬ ∃ pre ws, token.line = pre ++ '#' :: ws ∧ ∀ c ∈ ws, isSpace c = true)) ∧
    ((token.lines.2 : Int) - (token.lines.1 : Int) = 2 →
      headingStyleFor token = "setext") := by
  constructor
  · intro h
    rw [← reClosedAtx_search_iff]
    unfold headingStyleFor
    rw [if_pos h]
    by_cases hm : reClosedAtx.search token.line = true
    · simp [hm]
    · simp [hm]
  · intro h
    unfold headingStyleFor
    rw [if_neg (by omega)]

/-- C5 (amended), at the one-line heading `# H # `. -/
theorem headingStyleFor_spec_witness :
    headingStyleFor (mkToken "heading_open" 1 "# H # " (0, 1) 0 1) = "atx_closed" ↔
      ∃ pre ws, (mkToken "heading_open" 1 "# H # " (0, 1) 0 1).line = pre ++ '#' :: ws ∧
        ∀ c ∈ ws, isSpace c = true :=
  ((headingStyleFor_spec (mkToken "heading_open" 1 "# H # " (0, 1) 0 1)).1 (by decide)).1

/-- C6: when the style option is absent or "consistent", `MD003` never reports the first
heading and reports every later heading (its line number, in token order) if and only if
its style differs from the style of the first heading. -/
theorem MD003_consistent (params : Params)
    (h : params.options.style = none ∨ params.options.style = some "consistent") :
    MD003 params
      = match headingsOf params.tokens with
        | [] => []
        | first :: rest =>
          (rest.filter (fun t => decide (headingStyleFor t ≠ headingStyleFor first))).map
            Token.lineNumber := by
  have hc : strOr params.options.style "consistent" = "consistent" := by
    rw [strOr_consistent]
    rcases h with h | h
    · exact Or.inl h
    · exact Or.inr (Or.inr h)
  unfold MD003 MD003.style headingsOf
  rw [MD003_foldl, filterTokens_single]
  cases hf : params.tokens.filter (fun t => decide (t.type = "heading_open")) with
  | nil => simp
  | cons first rest => simp [hc]

/-- C6, at headings of styles atx_closed, atx_closed, atx (only the third is reported) and
setext, atx_closed (only the second is reported). -/
theorem MD003_consistent_witness :
    MD003 (ofTokens [mkToken "heading_open" 1 "# a #" (0, 1) 0 1,
      mkToken "heading_open" 3 "## b ##" (2, 3) 0 2,
      mkToken "heading_open" 5 "## c" (4, 5) 0 2]) = [5] ∧
    MD003 (ofTokens [mkToken "heading_open" 1 "a" (0, 2) 0 1,
      mkToken "heading_open" 4 "## b ##" (3, 4) 0 2]) = [4] :=
  ⟨(MD003_consistent _ (Or.inl rfl)).trans (by decide),
   (MD003_consistent _ (Or.inl rfl)).trans (by decide)⟩

/-- C7: when every heading has a level of at least 1 (in particular a level in 1..6),
`MD001` returns exactly the line numbers, in token order, of the headings that are not the
first one and whose level exceeds the level of the heading just before by more than
one. -/
theorem MD001_spec (params : Params)
    (h : ∀ t ∈ params.tokens, t.type = "heading_open" → 1 ≤ t.hLevel ∧ t.hLevel ≤ 6) :
    MD001 params = incrementFlags (headingsOf params.tokens) := by
  unfold MD001 headingsOf
  rw [filterTokens_single]
  have hlev : ∀ t ∈ params.tokens.filter (fun t => decide (t.type = "heading_open")),
      1 ≤ t.hLevel := by
    intro t ht
    rw [List.mem_filter] at ht
    exact (h t ht.1 (by simpa using ht.2)).1
  cases hf : params.tokens.filter (fun t => decide (t.type = "heading_open")) with
  | nil => simp [incrementFlags]
  | cons a rest =>
    rw [hf] at hlev
    rw [List.foldl_cons]
    have hstep : MD001.forToken { prevLevel := 0, errors := [] } a
        = { prevLevel := a.hLevel, errors := [] } := by
      simp [MD001.forToken]
    rw [hstep, MD001_foldl rest a [] hlev]
    simp

/-- C7, at the headings of levels 1, 2, 4 on lines 1, 3, 5. -/
theorem MD001_spec_witness :
    MD001 (ofTokens [mkToken "heading_open" 1 "# a" (0, 1) 0 1,
      mkToken "heading_open" 3 "## b" (2, 3) 0 2,
      mkToken "heading_open" 5 "#### c" (4, 5) 0 4])
    = incrementFlags (headingsOf [mkToken "heading_open" 1 "# a" (0, 1) 0 1,
      mkToken "heading_open" 3 "## b" (2, 3) 0 2,
      mkToken "heading_open" 5 "#### c" (4, 5) 0 4]) :=
  MD001_spec _ (by decide)

/-- C8: `MD002` returns nothing when there is no heading or the first heading has level 1,
and otherwise the line number of the first heading alone; the tokens after the first
heading do not change the result. -/
theorem MD002_spec (tokens pre post post2 : List Token) (t : Token) (lines : List Str)
    (options : Options) :
    MD002 { tokens := tokens, lines := lines, options := options }
      = (match tokens.find? (fun t => decide (t.type = "heading_open")) with
          | none => []
          | some t => if t.hLevel = 1 then [] else [t.lineNumber]) ∧
    ((∀ u ∈ pre, u.type ≠ "heading_open") → t.type = "heading_open" →
      MD002 { tokens := pre ++ t :: post, lines := lines, options := options }
        = MD002 { tokens := pre ++ t :: post2, lines := lines, options := options } ∧
      MD002 { tokens := pre ++ t :: post, lines := lines, options := options }
        = if t.hLevel = 1 then [] else [t.lineNumber]) := by
  refine ⟨?_, ?_⟩
  · simp [MD002, MD002_every_find]
  · intro hpre ht
    simp [MD002, MD002_every_find, find_heading_append pre t _ hpre ht]

/-- C8, at a paragraph followed by a heading of level 2 and two different tails. -/
theorem MD002_spec_witness :
    MD002 (ofTokens ([mkToken "paragraph_open" 1 "text" (0, 1) 0 0]
        ++ mkToken "heading_open" 3 "## b" (2, 3) 0 2
        :: [mkToken "heading_open" 5 "# c" (4, 5) 0 1]))
      = MD002 (ofTokens ([mkToken "paragraph_open" 1 "text" (0, 1) 0 0]
        ++ mkToken "heading_open" 3 "## b" (2, 3) 0 2 :: [])) ∧
    MD002 (ofTokens ([mkToken "paragraph_open" 1 "text" (0, 1) 0 0]
        ++ mkToken "heading_open" 3 "## b" (2, 3) 0 2
        :: [mkToken "heading_open" 5 "# c" (4, 5) 0 1])) = [3] :=
  (MD002_spec [] [mkToken "paragraph_open" 1 "text" (0, 1) 0 0]
    [mkToken "heading_open" 5 "# c" (4, 5) 0 1] []
    (mkToken "heading_open" 3 "## b" (2, 3) 0 2) [] noOptions).2 (by decide) (by decide)

/-- C9 (counterexample): with the limit 10^21 the text spliced into the expression is
`1e+21`, the expression is `/^.{1e+21}.*\s/`, and `MD013` reports the line `x{1e21} y`,
whose length 9 does not exceed the limit. -/
theorem MD013_exponent_limit :
    (units "x\x7b1e21\x7d y".toList).length = 9 ∧
    ¬ (10 ^ 21 < (units "x\x7b1e21\x7d y".toList).length) ∧
    MD013 (fun _ => reLimit1e21) (Params.mk [] ["x\x7b1e21\x7d y".toList]
      (Options.mk none none (some (10 ^ 21)))) = [1] := by
  decide

/-- C9 (amended): for lines without line terminators and a maximum `n` (the option
`line_length` when it is at least 1 and below 10^21, 80 when the option is absent),
`MD013` reports the number of a line if and only if the length of the line, in UTF-16
code units, exceeds `n` and the line has a white-space code unit at some index after its
first `n` code units; whatever expression a limit of 10^21 or more gives. -/
theorem MD013_spec (exponentForm : Nat → Re Nat) (params : Params) (n : Nat)
    (hn : (params.options.line_length = some n ∧ 1 ≤ n ∧ n < 10 ^ 21) ∨
      (params.options.line_length = none ∧ n = 80))
    (hlt : ∀ l ∈ params.lines, ∀ c ∈ l, isLineTerminator c = false)
    (i : Nat) (ln : Str) (hi : params.lines[i]? = some ln) :
    i + 1 ∈ MD013 exponentForm params ↔
      n < (units ln).length ∧
        ∃ j u, n ≤ j ∧ (units ln)[j]? = some u ∧ isSpaceUnit u = true := by
  have hN : natOr params.options.line_length 80 = n := by
    rcases hn with ⟨h, h1, _⟩ | ⟨h, h1⟩
    · rw [h]
      cases n with
      | zero => omega
      | succ k => rfl
    · rw [h, h1]; rfl
  have hsmall : n < 10 ^ 21 := by
    rcases hn with ⟨_, _, h⟩ | ⟨_, h⟩
    · exact h
    · rw [h]; decide
  have hline : ∀ u ∈ units ln, isDotUnit u = true :=
    units_dot ln (hlt ln (List.getElem?_mem hi))
  unfold MD013
  rw [hN, forEachIdx_flag_mem (MD013.forLine exponentForm n)
    (fun l => (MD013.regex exponentForm n).matchStart (units l)) (by intro e a i; rfl)]
  simp only [List.not_mem_nil, false_or, Nat.zero_add]
  constructor
  · rintro ⟨k, l, hk, hik, hp⟩
    have hki : k = i := by omega
    subst hki
    rw [hi] at hk
    simp only [Option.some.injEq] at hk
    subst hk
    rw [MD013_regex_iff exponentForm n hsmall,
      space_after_iff isDotUnit isSpaceUnit n (units ln) hline] at hp
    refine ⟨?_, hp⟩
    obtain ⟨j, c, hnj, hj, _⟩ := hp
    by_contra hge
    rw [List.getElem?_eq_none (by omega)] at hj
    simp at hj
  · rintro ⟨_, hp⟩
    refine ⟨i, ln, hi, rfl, ?_⟩
    rw [MD013_regex_iff exponentForm n hsmall,
      space_after_iff isDotUnit isSpaceUnit n (units ln) hline]
    exact hp

/-- C9 (amended), at the maximum 2 and the line made of the character U+1F600 (two code
units), a space and `x`: the line is reported, its space being the code unit of index 2;
at the maximum 3 the line "abcd e" is reported and "abcdef", "a b" are not. -/
theorem MD013_spec_witness :
    (0 + 1 ∈ MD013 (fun _ => Re.eps) (Params.mk [] [[Char.ofNat 128512, ' ', 'x']]
        (Options.mk none none (some 2))) ↔
      2 < (units [Char.ofNat 128512, ' ', 'x']).length ∧
        ∃ j u, 2 ≤ j ∧ (units [Char.ofNat 128512, ' ', 'x'])[j]? = some u ∧
          isSpaceUnit u = true) ∧
    MD013 (fun _ => Re.eps) (Params.mk [] [[Char.ofNat 128512, ' ', 'x']]
      (Options.mk none none (some 2))) = [1] ∧
    MD013 (fun _ => Re.eps) (Params.mk [] ["abcd e".toList, "abcdef".toList, "a b".toList]
      (Options.mk none none (some 3))) = [1] :=
  ⟨MD013_spec (fun _ => Re.eps) (Params.mk [] [[Char.ofNat 128512, ' ', 'x']]
      (Options.mk none none (some 2))) 2 (Or.inl ⟨rfl, by decide, by decide⟩) (by decide) 0
      [Char.ofNat 128512, ' ', 'x'] rfl,
    by decide, by decide⟩

/-- C10: `MD012` reports the line of index `i` (as `i + 1`) if and only if the line is
blank after trimming, `i` is at least 1, the line of index `i - 1` is blank after
trimming, and `i` lies in the span `[lines[0], lines[1])` of no `code_block` or `fence`
token. -/
theorem MD012_spec (params : Params) (i : Nat) (ln : Str)
    (hi : params.lines[i]? = some ln) :
    i + 1 ∈ MD012 params ↔
      trim ln = [] ∧ 1 ≤ i ∧ (∃ p, params.lines[i - 1]? = some p ∧ trim p = []) ∧
        ¬ ∃ t ∈ params.tokens, (t.type = "code_block" ∨ t.type = "fence") ∧
          t.lines.1 ≤ i ∧ i < t.lines.2 := by
  unfold MD012
  rw [MD012_loop, ← mem_exclusions]
  simp only [List.not_mem_nil, false_or, Nat.zero_add]
  constructor
  · rintro ⟨k, l, hk, hik, ht, hp, hx⟩
    have hki : k = i := by omega
    subst hki
    rw [hi] at hk
    simp only [Option.some.injEq] at hk
    subst hk
    cases k with
    | zero => simp at hp
    | succ k =>
      refine ⟨ht, by omega, ?_, hx⟩
      simp only [List.getElem?_cons_succ, List.getElem?_map, Option.map_eq_some'] at hp
      simpa using hp
  · rintro ⟨ht, h1, ⟨p, hp, hpt⟩, hx⟩
    refine ⟨i, ln, hi, rfl, ht, ?_, hx⟩
    cases i with
    | zero => omega
    | succ k =>
      simp only [List.getElem?_cons_succ, List.getElem?_map, Option.map_eq_some']
      exact ⟨p, by simpa using hp, hpt⟩

/-- C10, at two documents with the lines "a", "", " ", "b": without tokens the third line
is reported, with a fence token spanning the lines of index 1 to 3 it is not. -/
theorem MD012_spec_witness :
    (2 + 1 ∈ MD012 (ofLines ["a", "", " ", "b"]) ↔
      trim " ".toList = [] ∧ 1 ≤ 2 ∧
        (∃ p, (ofLines ["a", "", " ", "b"]).lines[2 - 1]? = some p ∧ trim p = []) ∧
        ¬ ∃ t ∈ (ofLines ["a", "", " ", "b"]).tokens,
          (t.type = "code_block" ∨ t.type = "fence") ∧ t.lines.1 ≤ 2 ∧ 2 < t.lines.2) ∧
    MD012 (ofLines ["a", "", " ", "b"]) = [3] ∧
    MD012 (Params.mk [mkToken "fence" 2 "" (1, 4) 0 0]
      ["a".toList, "".toList, " ".toList, "b".toList] noOptions) = [] :=
  ⟨MD012_spec (ofLines ["a", "", " ", "b"]) 2 " ".toList rfl, by decide, by decide⟩

/-- C3 (counterexample): in the lines "  text", "* item" the second line matches the marker
pattern, is outside code and outside a list, and follows a line that is neither empty nor
white space only; `MD032` reports nothing. -/
theorem MD032_indented_previous_line :
    (MD032.stateAfter ["  text".toList]).inCode = false ∧
    (MD032.stateAfter ["  text".toList]).inList = false ∧
    reListMarker.matchStart (trim "* item".toList) = true ∧
    trim "  text".toList ≠ [] ∧
    MD032 (ofLines ["  text", "* item"]) = [] := by
  decide

/-- C3 (amended): when a line that matches the list-item marker pattern after trimming is
processed outside fenced code while the rule is not inside a list, the list-start check
reports its 1-based number if and only if the preceding line is non-empty and does not
begin with a white-space character (before the first line the preceding line is the empty
string).  The numbers reported before are at most the number of the preceding line, and
the final result starts with them and this report. -/
theorem MD032_list_start (tokens : List Token) (options : Options) (pre post : List Str)
    (ln : Str)
    (hcode : (MD032.stateAfter pre).inCode = false)
    (hlist : (MD032.stateAfter pre).inList = false)
    (hmark : reListMarker.matchStart (trim ln) = true) :
    (∀ m ∈ (MD032.stateAfter pre).errors, m ≤ pre.length) ∧
    (MD032.stateAfter (pre ++ [ln])).errors
      = (MD032.stateAfter pre).errors
        ++ MD032.startReport (pre.getLastD []) (pre.length + 1) ∧
    ∃ later, MD032 { tokens := tokens, lines := pre ++ ln :: post, options := options }
      = (MD032.stateAfter pre).errors
        ++ MD032.startReport (pre.getLastD []) (pre.length + 1) ++ later := by
  have hinv := MD032_Inv_loop pre 0 MD032.init MD032_Inv_init
  have hsnoc : (MD032.stateAfter (pre ++ [ln])).errors
      = (MD032.stateAfter pre).errors
        ++ MD032.startReport (pre.getLastD []) (pre.length + 1) := by
    rw [MD032_stateAfter_snoc, MD032_forLine_errors, ← MD032_stateAfter_prevLine,
      ← reBlankStart_startReport]
    unfold MD032.checkLine
    by_cases hb : reBlankStart.matchStart (MD032.stateAfter pre).prevLine = true
    · simp [hcode, hlist, hmark, hb]
    · simp [hcode, hlist, hmark, hb]
  refine ⟨?_, hsnoc, ?_⟩
  · intro m hm
    have := hinv.2.1 m hm
    simpa [MD032.stateAfter] using this
  · have hsplit : pre ++ ln :: post = (pre ++ [ln]) ++ post := by simp
    obtain ⟨later, hl⟩ := MD032_errors_extend post (0 + (pre ++ [ln]).length)
      (MD032.stateAfter (pre ++ [ln]))
    refine ⟨later, ?_⟩
    unfold MD032
    simp only
    rw [hsplit, forEachIdx_append]
    rw [← hsnoc]
    exact hl

/-- C3 (amended), at the lines "text", "* item", "more" and at "  text", "* item". -/
theorem MD032_list_start_witness :
    (MD032.stateAfter (["text".toList] ++ ["* item".toList])).errors = [2] ∧
    (MD032.stateAfter (["  text".toList] ++ ["* item".toList])).errors = [] :=
  ⟨(MD032_list_start [] noOptions ["text".toList] ["more".toList] "* item".toList
      (by decide) (by decide) (by decide)).2.1.trans (by decide),
   (MD032_list_start [] noOptions ["  text".toList] [] "* item".toList
      (by decide) (by decide) (by decide)).2.1.trans (by decide)⟩

/-- C4 (counterexample): in the lines "text", "* item", "more" the list item has no blank
line before it and none after it, and `MD032` reports its line twice. -/
theorem MD032_reports_line_twice :
    MD032 (ofLines ["text", "* item", "more"]) = [2, 2] := by
  decide

/-- C4 (amended): the line numbers `MD032` reports are in non-decreasing order and every
line number is reported at most twice. -/
theorem MD032_sorted (params : Params) :
    (MD032 params).Sorted (fun a b => a ≤ b) ∧ ∀ m, (MD032 params).count m ≤ 2 := by
  have h := MD032_Inv_loop params.lines 0 MD032.init MD032_Inv_init
  exact ⟨h.1, h.2.2.2⟩

/-- C13: with the step `step` (the option `indent` when it is at least 1, 2 when the option
is absent), `MD007` returns exactly the line numbers, in token order, of the
`bullet_list_open` tokens whose indentation is greater than the indentation of the
`bullet_list_open` token just before (0 before the first) and exceeds it by an amount
other than `step`; a token of equal or smaller indentation is never reported. -/
theorem MD007_spec (params : Params) (step : Nat)
    (hs : (params.options.indent = some step ∧ 1 ≤ step) ∨
      (params.options.indent = none ∧ step = 2)) :
    MD007 params = stepFlags step 0 (bulletListsOf params.tokens) := by
  have hN : natOr params.options.indent 2 = step := by
    rcases hs with ⟨h, h1⟩ | ⟨h, h1⟩
    · rw [h]
      cases step with
      | zero => omega
      | succ k => rfl
    · rw [h, h1]; rfl
  unfold MD007 bulletListsOf
  rw [hN, MD007_foldl, filterTokens_single]
  rfl

/-- C13, at three bullet lists of indentations 0, 2, 5 and the default step 2: only the
third list is reported. -/
theorem MD007_spec_witness :
    MD007 (ofTokens [mkToken "bullet_list_open" 1 "* a" (0, 1) 0 0,
      mkToken "bullet_list_open" 2 "  * b" (1, 2) 2 0,
      mkToken "bullet_list_open" 3 "     * c" (2, 3) 4 0]) = [3] :=
  (MD007_spec _ 2 (Or.inr ⟨rfl, rfl⟩)).trans (by decide)

/-- C14: `MD006` returns exactly the line numbers, in token order, of the
`bullet_list_open` tokens that have as many `bullet_list_open` as `bullet_list_close`
tokens before them and whose line has a nonzero indentation (for every token sequence,
balanced or not); a `bullet_list_open` token with more `bullet_list_open` than
`bullet_list_close` tokens before it, as inside another list, contributes nothing. -/
theorem MD006_spec (params : Params) (pre post : List Token) (t : Token) :
    MD006 params = topLevelFlags [] params.tokens ∧
    (params.tokens = pre ++ t :: post → closesIn pre < opensIn pre →
      MD006 params = topLevelFlags [] pre ++ topLevelFlags (pre ++ [t]) post) := by
  have hmain : MD006 params = topLevelFlags [] params.tokens := by
    have h := MD006_filter_foldl params.tokens [] []
    simpa [MD006, opensIn, closesIn] using h
  refine ⟨hmain, ?_⟩
  intro htok hlt
  rw [hmain, htok, topLevelFlags_append]
  have hne : opensIn pre ≠ closesIn pre := by omega
  simp [topLevelFlags, hne]

/-- C14, at an indented list that holds a more indented nested list and is followed by
another indented list: the nested list is not reported. -/
theorem MD006_spec_witness :
    MD006 (ofTokens ([mkToken "bullet_list_open" 1 " * a" (0, 3) 0 0]
      ++ mkToken "bullet_list_open" 2 "   * b" (1, 2) 2 0
      :: [mkToken "bullet_list_close" 3 "" (0, 0) 2 0,
          mkToken "bullet_list_close" 3 "" (0, 0) 0 0,
          mkToken "bullet_list_open" 5 " * c" (4, 5) 0 0])) = [1, 5] :=
  ((MD006_spec _ [mkToken "bullet_list_open" 1 " * a" (0, 3) 0 0]
      [mkToken "bullet_list_close" 3 "" (0, 0) 2 0,
       mkToken "bullet_list_close" 3 "" (0, 0) 0 0,
       mkToken "bullet_list_open" 5 " * c" (4, 5) 0 0]
      (mkToken "bullet_list_open" 2 "   * b" (1, 2) 2 0)).2 rfl (by decide)).trans
    (by decide)

/-- C17: `MD028` returns exactly the list, in token order, of `lineNumber - 1` for each
`blockquote_open` token whose immediately preceding token is a `blockquote_close` token;
a `blockquote_open` token that is first or follows a token of another type is not
reported. -/
theorem MD028_spec (params : Params) : MD028 params = reopenFlags params.tokens := by
  unfold MD028
  cases params.tokens with
  | nil => rfl
  | cons a rest =>
    rw [List.foldl_cons]
    have hstep : MD028.forToken { prevToken := none, errors := [] } a
        = { prevToken := some a, errors := [] } := by
      simp [MD028.forToken]
    rw [hstep, MD028_foldl]
    simp

/-- C16 (counterexample): two inline tokens of the same line, as the cells of one table
row; no child of the second one matches the reversed-link pattern, and its line number 1
is in the result of `MD011` because a child of the first one matches. -/
theorem MD011_shared_line :
    (Token.mk "inline" 1 "| (a)[b] | c |".toList (0, 1) 0 0
      [Child.mk "text" "c".toList]).type = "inline" ∧
    (∀ child ∈ (Token.mk "inline" 1 "| (a)[b] | c |".toList (0, 1) 0 0
        [Child.mk "text" "c".toList]).children,
      reReversedLink.search child.content = false) ∧
    (Token.mk "inline" 1 "| (a)[b] | c |".toList (0, 1) 0 0
      [Child.mk "text" "c".toList]).lineNumber
      ∈ MD011 (ofTokens [Token.mk "inline" 1 "| (a)[b] | c |".toList (0, 1) 0 0
          [Child.mk "text" "(a)[b]".toList],
        Token.mk "inline" 1 "| (a)[b] | c |".toList (0, 1) 0 0
          [Child.mk "text" "c".toList]]) := by
  decide

/-- C16 (amended): `MD011` returns, in token order, the line number of every inline token
once for each of its children of type `text` whose content matches the reversed-link
pattern, so a line number appears in the result if and only if it is the line number of
some inline token with at least one child of type `text` whose content holds `(`, one or
more characters other than `)`, `)[`, one or more characters other than `]`, and `]`;
tokens of other types and children of other types contribute nothing. -/
theorem MD011_spec (params : Params) :
    MD011 params
      = (params.tokens.filter (fun t => decide (t.type = "inline"))).flatMap
          reversedLinkFlags ∧
    ∀ n, n ∈ MD011 params ↔
      ∃ t ∈ params.tokens, t.type = "inline" ∧ t.lineNumber = n ∧
        ∃ child ∈ t.children, child.type = "text" ∧ hasReversedLink child.content := by
  have hmain : MD011 params
      = (params.tokens.filter (fun t => decide (t.type = "inline"))).flatMap
          reversedLinkFlags := by
    unfold MD011
    rw [MD011_foldl, filterTokens_single]
    simp
  refine ⟨hmain, ?_⟩
  intro n
  rw [hmain]
  simp only [List.mem_flatMap, List.mem_filter, reversedLinkFlags, List.mem_map,
    decide_eq_true_eq]
  constructor
  · rintro ⟨t, ⟨ht, hty⟩, child, ⟨⟨hc, hcty⟩, hm⟩, hn⟩
    exact ⟨t, ht, hty, hn, child, hc, hcty, (reReversedLink_iff _).mp hm⟩
  · rintro ⟨t, ht, hty, hn, child, hc, hcty, hm⟩
    exact ⟨t, ⟨ht, hty⟩, child, ⟨⟨hc, hcty⟩, (reReversedLink_iff _).mpr hm⟩, hn⟩

/-- C19: `MD005` returns exactly the line numbers, in token order, of the list items for
which some strictly earlier list item of the same level has a nonzero indentation and
whose indentation differs from the indentation of the earliest such item; an item with no
earlier item of nonzero indentation at its level is not reported, and when every list
item has a nonzero indentation the rule reports exactly the items whose indentation
differs from the first item of their level. -/
theorem MD005_spec (params : Params) :
    MD005 params = baselineFlags [] (listItemsOf params.tokens) ∧
    ((∀ t ∈ listItemsOf params.tokens, indentFor t ≠ 0) →
      MD005 params = firstItemFlags [] (listItemsOf params.tokens)) := by
  have hmain : MD005 params = baselineFlags [] (listItemsOf params.tokens) := by
    unfold MD005 listItemsOf
    rw [filterTokens_single, MD005_foldl _ []]
    · simp
    · intro level
      simp [baselineOf, MD005.unset]
  refine ⟨hmain, ?_⟩
  intro h
  rw [hmain, baselineFlags_eq_firstItemFlags _ [] (by simp) h]

/-- C19, at three items of one level with the indentations 1, 3, 1: the second item is
reported. -/
theorem MD005_spec_witness :
    MD005 (ofTokens [mkToken "list_item_open" 1 " * a" (0, 1) 1 0,
      mkToken "list_item_open" 2 "   * b" (1, 2) 1 0,
      mkToken "list_item_open" 3 " * c" (2, 3) 1 0]) = [2] :=
  ((MD005_spec _).2 (by decide)).trans (by decide)

/-- C15: the result of `MD009` is strictly ascending and holds exactly the 1-based numbers
of the lines whose last character is a white-space character; in the lines "text   ",
"text", "  ", "" the first and the third are reported, the second and the empty one are
not. -/
theorem MD009_spec (params : Params) :
    (MD009 params).Sorted (fun a b => a < b) ∧
    (∀ m, m ∈ MD009 params ↔
      ∃ i ln c, m = i + 1 ∧ params.lines[i]? = some ln ∧ ln.getLast? = some c ∧
        isSpace c = true) ∧
    MD009 (ofLines ["text   ", "text", "  ", ""]) = [1, 3] := by
  refine ⟨?_, ?_, by decide⟩
  · exact (flag_loop_sorted MD009.forLine (fun l => reTrailingSpace.search l)
      (by intro e a i; rfl) params.lines).1
  · intro m
    unfold MD009
    rw [forEachIdx_flag_mem MD009.forLine (fun l => reTrailingSpace.search l)
      (by intro e a i; rfl)]
    simp only [List.not_mem_nil, false_or, Nat.zero_add]
    constructor
    · rintro ⟨k, ln, hk, hm, hp⟩
      obtain ⟨c, hc1, hc2⟩ := (reTrailingSpace_iff ln).mp hp
      exact ⟨k, ln, c, hm, hk, hc1, hc2⟩
    · rintro ⟨k, ln, c, hm, hk, hc1, hc2⟩
      exact ⟨k, ln, hk, hm, (reTrailingSpace_iff ln).mpr ⟨c, hc1, hc2⟩⟩

/-- C11: for a run of `k ≥ 1` consecutive lines, of indices `a` to `a + k - 1`, that are
blank after trimming and lie in the span of no `code_block` or `fence` token, the run
starting the document or following a line that is not blank, `MD012` does not report the
first line of the run and reports each of the `k - 1` lines after it, exactly once: the
reported numbers between `a + 1` and `a + k` are `a + 2, ..., a + k`. -/
theorem MD012_blank_run (params : Params) (a k : Nat) (hk : 1 ≤ k)
    (hrun : ∀ j, j < k → ∃ ln, params.lines[a + j]? = some ln ∧ trim ln = [] ∧
      ¬ ∃ t ∈ params.tokens, (t.type = "code_block" ∨ t.type = "fence") ∧
        t.lines.1 ≤ a + j ∧ a + j < t.lines.2)
    (hstart : a = 0 ∨ ∃ p, params.lines[a - 1]? = some p ∧ trim p ≠ []) :
    a + 1 ∉ MD012 params ∧
    (∀ j, 1 ≤ j → j < k → a + j + 1 ∈ MD012 params) ∧
    (MD012 params).filter (fun m => decide (a + 1 ≤ m ∧ m ≤ a + k))
      = List.range' (a + 2) (k - 1) := by
  have hfirst : a + 1 ∉ MD012 params := by
    obtain ⟨ln, hln, _, _⟩ := hrun 0 (by omega)
    rw [Nat.add_zero] at hln
    rw [MD012_mem params a ln hln]
    rintro ⟨_, h1, ⟨p, hp, hpt⟩, _⟩
    rcases hstart with h0 | ⟨q, hq, hqt⟩
    · omega
    · rw [hp] at hq
      simp only [Option.some.injEq] at hq
      subst hq
      exact hqt hpt
  have hrest : ∀ j, 1 ≤ j → j < k → a + j + 1 ∈ MD012 params := by
    intro j h1 hj
    obtain ⟨ln, hln, hlt, hlx⟩ := hrun j hj
    obtain ⟨p, hp, hpt, _⟩ := hrun (j - 1) (by omega)
    rw [MD012_mem params (a + j) ln hln]
    refine ⟨hlt, by omega, ⟨p, ?_, hpt⟩, hlx⟩
    have he : a + j - 1 = a + (j - 1) := by omega
    rw [he]; exact hp
  refine ⟨hfirst, hrest, ?_⟩
  apply sorted_lt_ext
  · exact (MD012_sorted params).1.filter _
  · exact List.pairwise_lt_range' (a + 2) (k - 1)
  · intro m
    simp only [List.mem_filter, decide_eq_true_eq, List.mem_range'_1]
    constructor
    · rintro ⟨hm, h1, h2⟩
      have hne : m ≠ a + 1 := fun h => hfirst (h ▸ hm)
      omega
    · rintro ⟨h1, h2⟩
      refine ⟨?_, by omega, by omega⟩
      have := hrest (m - a - 1) (by omega) (by omega)
      have he : a + (m - a - 1) + 1 = m := by omega
      rw [he] at this
      exact this

/-- C11, at the lines "a", "", "", "", "b": of the three blank lines the second and the
third are reported. -/
theorem MD012_blank_run_witness :
    1 + 1 ∉ MD012 (ofLines ["a", "", "", "", "b"]) ∧
    (∀ j, 1 ≤ j → j < 3 → 1 + j + 1 ∈ MD012 (ofLines ["a", "", "", "", "b"])) ∧
    (MD012 (ofLines ["a", "", "", "", "b"])).filter
        (fun m => decide (1 + 1 ≤ m ∧ m ≤ 1 + 3)) = List.range' (1 + 2) (3 - 1) :=
  MD012_blank_run (ofLines ["a", "", "", "", "b"]) 1 3 (by decide)
    (by
      intro j hj
      have hnot : ¬ ∃ t ∈ (ofLines ["a", "", "", "", "b"]).tokens,
          (t.type = "code_block" ∨ t.type = "fence") ∧ t.lines.1 ≤ 1 + j ∧
            1 + j < t.lines.2 := by
        simp [ofLines]
      interval_cases j
      · exact ⟨[], rfl, rfl, hnot⟩
      · exact ⟨[], rfl, rfl, hnot⟩
      · exact ⟨[], rfl, rfl, hnot⟩)
    (Or.inr ⟨"a".toList, rfl, by decide⟩)

/-- C12: `MD031` returns a result for every list of lines, and the 1-based line `n` is in
it if and only if line `n`, after trimming, starts with three backticks or three tildes
and either it is an odd-numbered fence line counting from the top and line `n - 1` exists
and is non-empty after trimming, or it is an even-numbered fence line and line `n + 1`
exists and is non-empty after trimming.  The lines "text", fence, "code", fence, "text"
give lines 2 and 4; with a blank line before the opening and after the closing fence
nothing is reported. -/
theorem MD031_spec (params : Params) :
    (∃ errs, MD031 params = some errs ∧
      ∀ n, n ∈ errs ↔
        ∃ ln, 1 ≤ n ∧ params.lines[n - 1]? = some ln ∧ startsWithFence (trim ln) ∧
          ((fenceCount params.lines n % 2 = 1 ∧
              ∃ p, 2 ≤ n ∧ params.lines[n - 2]? = some p ∧ trim p ≠ []) ∨
           (fenceCount params.lines n % 2 = 0 ∧
              ∃ q, params.lines[n]? = some q ∧ trim q ≠ []))) ∧
    MD031 (ofLines ["text", "```", "code", "```", "text"]) = some [2, 4] ∧
    MD031 (ofLines ["text", "", "```", "code", "```", "", "text"]) = some [] := by
  refine ⟨?_, by decide, by decide⟩
  obtain ⟨errs, h1, _, h3⟩ := MD031_result params
  refine ⟨errs, h1, ?_⟩
  intro n
  rw [h3]
  constructor
  · rintro ⟨ln, a, b, c, d⟩
    exact ⟨ln, a, b, (reFence_iff _).mp c, d⟩
  · rintro ⟨ln, a, b, c, d⟩
    exact ⟨ln, a, b, (reFence_iff _).mpr c, d⟩

/-- C18: for a document of `n` lines each of `MD009`, `MD010`, `MD012`, `MD013` (for every
limit) and `MD031` reports a strictly ascending list of line numbers, all between 1 and
`n`. -/
theorem line_rules_ascending (params : Params) (exponentForm : Nat → Re Nat) :
    ((MD009 params).Sorted (fun a b => a < b) ∧
      ∀ m ∈ MD009 params, 1 ≤ m ∧ m ≤ params.lines.length) ∧
    ((MD010 params).Sorted (fun a b => a < b) ∧
      ∀ m ∈ MD010 params, 1 ≤ m ∧ m ≤ params.lines.length) ∧
    ((MD012 params).Sorted (fun a b => a < b) ∧
      ∀ m ∈ MD012 params, 1 ≤ m ∧ m ≤ params.lines.length) ∧
    ((MD013 exponentForm params).Sorted (fun a b => a < b) ∧
      ∀ m ∈ MD013 exponentForm params, 1 ≤ m ∧ m ≤ params.lines.length) ∧
    (∃ errs, MD031 params = some errs ∧ errs.Sorted (fun a b => a < b) ∧
      ∀ m ∈ errs, 1 ≤ m ∧ m ≤ params.lines.length) := by
  refine ⟨?_, ?_, MD012_sorted params, ?_, ?_⟩
  · exact flag_loop_sorted MD009.forLine (fun l => reTrailingSpace.search l)
      (by intro e a i; rfl) params.lines
  · exact flag_loop_sorted MD010.forLine (fun l => reTab.search l)
      (by intro e a i; rfl) params.lines
  · exact flag_loop_sorted
      (MD013.forLine exponentForm (natOr params.options.line_length 80))
      (fun l => (MD013.regex exponentForm
        (natOr params.options.line_length 80)).matchStart (units l))
      (by intro e a i; rfl) params.lines
  · obtain ⟨errs, h1, h2, h3⟩ := MD031_result params
    refine ⟨errs, h1, h2, ?_⟩
    intro m hm
    obtain ⟨ln, hge, hln, _, _⟩ := (h3 m).mp hm
    refine ⟨hge, ?_⟩
    by_contra hc
    rw [List.getElem?_eq_none (by omega)] at hln
    exact absurd hln (by simp)

/-- C18, at a document of four lines: the line number 1 that `MD009` reports lies between
1 and 4. -/
theorem line_rules_ascending_witness :
    1 ≤ 1 ∧ 1 ≤ (ofLines ["text   ", "text", "  ", ""]).lines.length :=
  (line_rules_ascending (ofLines ["text   ", "text", "  ", ""]) (fun _ => Re.eps)).1.2 1
    (by decide)

/-- C20: in the padded list of `MD031` a line matching the fence marker is never the first
or the last entry (the two empty sentinels), so the accesses `lines[lineNumber - 1]` and
`lines[lineNumber + 1]` made at a fence line are within bounds, and the rule returns a
result for every list of lines: for the empty list, for a document whose first line is a
fence and for one whose last line is a fence. -/
theorem MD031_index_safe (lines : List Str) (tokens : List Token) (options : Options) :
    (∀ j l, (padAndTrim lines)[j]? = some l → reFence.matchStart l = true →
      (1 ≤ j ∧ j + 1 < (padAndTrim lines).length) ∧
      (MD031.lengthAt (padAndTrim lines) ((j : Int) - 1)).isSome = true ∧
      (MD031.lengthAt (padAndTrim lines) ((j : Int) + 1)).isSome = true) ∧
    (MD031 { tokens := tokens, lines := lines, options := options }).isSome = true ∧
    MD031 (ofLines []) = some [] ∧
    MD031 (ofLines ["```", "code"]) = some [] ∧
    MD031 (ofLines ["code", "```"]) = some [2] := by
  refine ⟨?_, ?_, by decide, by decide, by decide⟩
  · intro j l hl hf
    have h := padAndTrim_safe lines j l hl hf
    exact ⟨h, MD031_lengthAt_isSome _ j h.1 h.2⟩
  · obtain ⟨errs, h1, _, _⟩ := MD031_result
      { tokens := tokens, lines := lines, options := options }
    rw [h1]
    rfl

/-- C20, at the document whose only line is a fence: the fence is the entry of index 1 of
the padded list of length 3. -/
theorem MD031_index_safe_witness :
    (1 ≤ 1 ∧ 1 + 1 < (padAndTrim ["~~~".toList]).length) ∧
    (MD031.lengthAt (padAndTrim ["~~~".toList]) (((1 : Nat) : Int) - 1)).isSome = true ∧
    (MD031.lengthAt (padAndTrim ["~~~".toList]) (((1 : Nat) : Int) + 1)).isSome = true :=
  (MD031_index_safe ["~~~".toList] [] noOptions).1 1 "~~~".toList (by decide) (by decide)

end Markdownlint
